import Mathlib

/-!
Verification of the RAG knowledge-base core and the SSE stream decoder of
the BaiyuAISpace2 backend, as a shallow embedding in Lean.

Conventions used throughout:
* `f32` values are modelled as exact numbers: `ℝ` where square roots are
  involved (cosine similarity, vector search) and `ℚ` where only field
  operations occur (reciprocal-rank fusion).  Rust strings are modelled as
  `String` or as `List Char` where byte-level slicing matters.
* Rust's stable `sort_by(|a, b| b.score.partial_cmp(&a.score))` is modelled
  by the stable descending insertion sort `sortDescBy`.
* A Rust function that can panic is modelled as an `Option`-valued function,
  `none` meaning a panic.
* The iteration order of a `HashMap` is unspecified in Rust; it is modelled
  here by an association list in insertion order.
-/

/-- Stable insertion of `x` into a list sorted descending by `score`:
`x` is placed before the first element whose score is not greater, so
elements with equal scores keep their original relative order, exactly as
Rust's stable sort does. -/
def insertDescBy {α β : Type} [LinearOrder β] (score : α → β) (x : α) : List α → List α
  | [] => [x]
  | y :: l => if score x < score y then y :: insertDescBy score x l else x :: y :: l

/-- Stable sort, descending by `score`; models Rust's
`sort_by(|a, b| b.score.partial_cmp(&a.score).unwrap())`. -/
def sortDescBy {α β : Type} [LinearOrder β] (score : α → β) : List α → List α
  | [] => []
  | x :: l => insertDescBy score x (sortDescBy score l)

theorem insertDescBy_perm {α β : Type} [LinearOrder β] (score : α → β) (x : α) :
    ∀ l : List α, List.Perm (insertDescBy score x l) (x :: l) := by
  intro l
  induction l with
  | nil => simp [insertDescBy]
  | cons y l ih =>
    by_cases h : score x < score y
    · simp only [insertDescBy, if_pos h]
      exact (ih.cons y).trans (List.Perm.swap x y l)
    · simp [insertDescBy, if_neg h]

theorem sortDescBy_perm {α β : Type} [LinearOrder β] (score : α → β) :
    ∀ l : List α, List.Perm (sortDescBy score l) l := by
  intro l
  induction l with
  | nil => simp [sortDescBy]
  | cons x l ih =>
    exact ((insertDescBy_perm score x _).trans (ih.cons x))

theorem insertDescBy_sorted {α β : Type} [LinearOrder β] (score : α → β) (x : α)
    {l : List α} (h : l.Pairwise (fun a b => score b ≤ score a)) :
    (insertDescBy score x l).Pairwise (fun a b => score b ≤ score a) := by
  induction l with
  | nil => simp [insertDescBy]
  | cons y l ih =>
    have hy := (List.pairwise_cons.mp h).1
    have hl := (List.pairwise_cons.mp h).2
    by_cases hxy : score x < score y
    · simp only [insertDescBy, if_pos hxy]
      refine List.Pairwise.cons ?_ (ih hl)
      intro z hz
      have hz2 := (insertDescBy_perm score x l).mem_iff.mp hz
      rcases List.mem_cons.mp hz2 with hzx | hzl
      · exact hzx ▸ le_of_lt hxy
      · exact hy z hzl
    · simp only [insertDescBy, if_neg hxy]
      refine List.Pairwise.cons ?_ (List.Pairwise.cons hy hl)
      intro z hz
      rcases List.mem_cons.mp hz with hzy | hzl
      · exact hzy ▸ le_of_not_lt hxy
      · exact le_trans (hy z hzl) (le_of_not_lt hxy)

theorem sortDescBy_sorted {α β : Type} [LinearOrder β] (score : α → β) :
    ∀ l : List α, (sortDescBy score l).Pairwise (fun a b => score b ≤ score a) := by
  intro l
  induction l with
  | nil => simp [sortDescBy]
  | cons x l ih => exact insertDescBy_sorted score x ih

theorem insertDescBy_filter {α β : Type} [LinearOrder β] (score : α → β) (x : α)
    (s : β) : ∀ l : List α,
    (insertDescBy score x l).filter (fun a => decide (score a = s)) =
      (x :: l).filter (fun a => decide (score a = s)) := by
  intro l
  induction l with
  | nil => simp [insertDescBy]
  | cons y l ih =>
    by_cases hxy : score x < score y
    · have hx : ¬ score x = s ∨ ¬ score y = s := by
        by_cases hy : score y = s
        · left; intro hx; exact absurd (hx.trans hy.symm) (ne_of_lt hxy)
        · right; exact hy
      simp only [insertDescBy, if_pos hxy, List.filter_cons] at *
      rcases hx with hx | hy2
      · simp only [hx, decide_eq_true_eq, if_neg hx] at *
        by_cases hy : score y = s
        · simp [hy, ih]
        · simp [hy, ih]
      · simp [hy2, ih]
    · simp [insertDescBy, if_neg hxy]

theorem sortDescBy_filter {α β : Type} [LinearOrder β] (score : α → β) (s : β) :
    ∀ l : List α,
    (sortDescBy score l).filter (fun a => decide (score a = s)) =
      l.filter (fun a => decide (score a = s)) := by
  intro l
  induction l with
  | nil => simp [sortDescBy]
  | cons x l ih =>
    have h := insertDescBy_filter score x s (sortDescBy score l)
    simp only [sortDescBy, h, List.filter_cons]
    by_cases hx : score x = s
    · simp [hx, ih]
    · simp [hx, ih]

/-! ## Cosine similarity (claim C8)

Shallow embedding of `cosine_similarity` from
`src-tauri/src/knowledge_base/db.rs`, with `f32` modelled as `ℝ`. -/

/-- Model of `a.iter().zip(b.iter()).map(|(x, y)| x * y).sum()`. -/
def dotList (a b : List ℝ) : ℝ := (List.zipWith (fun x y => x * y) a b).sum

/-- Model of `v.iter().map(|x| x * x).sum()`. -/
def sumSq (a : List ℝ) : ℝ := (a.map (fun x => x * x)).sum

/-- Model of `v.iter().map(|x| x * x).sum::<f32>().sqrt()`. -/
noncomputable def normList (a : List ℝ) : ℝ := Real.sqrt (sumSq a)

/-- Model of `cosine_similarity` in `db.rs`: 0 on length mismatch, 0 when
either norm is zero, else the normalized dot product. -/
noncomputable def cosine_similarity (a b : List ℝ) : ℝ :=
  if a.length ≠ b.length then 0
  else if normList a = 0 ∨ normList b = 0 then 0
  else dotList a b / (normList a * normList b)

theorem dotList_comm (a : List ℝ) : ∀ b : List ℝ, dotList a b = dotList b a := by
  induction a with
  | nil => intro b; cases b <;> simp [dotList]
  | cons x a ih =>
    intro b
    cases b with
    | nil => simp [dotList]
    | cons y b =>
      simp only [dotList, List.zipWith_cons_cons, List.sum_cons] at *
      rw [mul_comm, ih b]

theorem sumSq_nonneg (a : List ℝ) : 0 ≤ sumSq a := by
  induction a with
  | nil => simp [sumSq]
  | cons x a ih =>
    simp only [sumSq, List.map_cons, List.sum_cons]
    exact add_nonneg (mul_self_nonneg x) ih

theorem normList_nonneg (a : List ℝ) : 0 ≤ normList a := Real.sqrt_nonneg _

theorem dotList_self (a : List ℝ) : dotList a a = sumSq a := by
  induction a with
  | nil => simp [dotList, sumSq]
  | cons x a ih => simp [dotList, sumSq, List.zipWith_cons_cons] at *

theorem dotList_eq_sum_range (a : List ℝ) : ∀ b : List ℝ, a.length = b.length →
    dotList a b = ∑ i ∈ Finset.range a.length, a.getD i 0 * b.getD i 0 := by
  induction a with
  | nil => intro b _; simp [dotList]
  | cons x a ih =>
    intro b hb
    cases b with
    | nil => simp at hb
    | cons y b =>
      simp only [List.length_cons, Nat.succ.injEq] at hb
      simp only [dotList, List.zipWith_cons_cons, List.sum_cons, List.length_cons]
      rw [Finset.sum_range_succ']
      simp only [List.getD_cons_succ, List.getD_cons_zero]
      rw [← ih b hb]
      simp only [dotList]
      exact add_comm _ _

theorem sumSq_eq_sum_range (a : List ℝ) :
    sumSq a = ∑ i ∈ Finset.range a.length, a.getD i 0 * a.getD i 0 := by
  induction a with
  | nil => simp [sumSq]
  | cons x a ih =>
    simp only [sumSq, List.map_cons, List.sum_cons, List.length_cons]
    rw [Finset.sum_range_succ']
    simp only [List.getD_cons_succ, List.getD_cons_zero]
    simp only [sumSq] at ih
    rw [← ih]
    exact add_comm _ _

theorem dotList_sq_le (a b : List ℝ) (h : a.length = b.length) :
    dotList a b * dotList a b ≤ sumSq a * sumSq b := by
  rw [dotList_eq_sum_range a b h, sumSq_eq_sum_range a, sumSq_eq_sum_range b, ← h]
  have hcs := Finset.sum_mul_sq_le_sq_mul_sq (Finset.range a.length)
    (fun i => a.getD i 0) (fun i => b.getD i 0)
  calc (∑ i ∈ Finset.range a.length, a.getD i 0 * b.getD i 0) *
        (∑ i ∈ Finset.range a.length, a.getD i 0 * b.getD i 0)
      = (∑ i ∈ Finset.range a.length, a.getD i 0 * b.getD i 0) ^ 2 := by ring
    _ ≤ (∑ i ∈ Finset.range a.length, a.getD i 0 ^ 2) *
        (∑ i ∈ Finset.range a.length, b.getD i 0 ^ 2) := hcs
    _ = (∑ i ∈ Finset.range a.length, a.getD i 0 * a.getD i 0) *
        (∑ i ∈ Finset.range a.length, b.getD i 0 * b.getD i 0) := by
          simp only [pow_two]

theorem abs_dotList_le (a b : List ℝ) (h : a.length = b.length) :
    |dotList a b| ≤ normList a * normList b := by
  have h1 : |dotList a b| = Real.sqrt (dotList a b * dotList a b) :=
    (Real.sqrt_mul_self_eq_abs _).symm
  rw [h1, normList, normList, ← Real.sqrt_mul (sumSq_nonneg a)]
  exact Real.sqrt_le_sqrt (dotList_sq_le a b h)

theorem sumSq_ne_zero_of_norm {a : List ℝ} (h : normList a ≠ 0) : sumSq a ≠ 0 := by
  intro h0
  apply h
  rw [normList, h0, Real.sqrt_zero]

theorem cosine_similarity_of_ok {a b : List ℝ} (hl : a.length = b.length)
    (hn : ¬(normList a = 0 ∨ normList b = 0)) :
    cosine_similarity a b = dotList a b / (normList a * normList b) := by
  unfold cosine_similarity
  rw [if_neg (not_not_intro hl), if_neg hn]

/-- C8. `cosine_similarity` is symmetric, always lies in `[-1, 1]`, equals 1
on a vector of non-zero norm against itself, and returns 0 whenever the two
vectors have different lengths or either has zero norm. -/
theorem cosine_similarity_props :
    (∀ a b : List ℝ, cosine_similarity a b = cosine_similarity b a) ∧
    (∀ a b : List ℝ, -1 ≤ cosine_similarity a b ∧ cosine_similarity a b ≤ 1) ∧
    (∀ a : List ℝ, normList a ≠ 0 → cosine_similarity a a = 1) ∧
    (∀ a b : List ℝ, a.length ≠ b.length → cosine_similarity a b = 0) ∧
    (∀ a b : List ℝ, normList a = 0 ∨ normList b = 0 → cosine_similarity a b = 0) := by
  have hzero : ∀ a b : List ℝ, a.length ≠ b.length → cosine_similarity a b = 0 := by
    intro a b h
    simp [cosine_similarity, h]
  have hnorm : ∀ a b : List ℝ, normList a = 0 ∨ normList b = 0 →
      cosine_similarity a b = 0 := by
    intro a b h
    by_cases hl : a.length ≠ b.length
    · simp [cosine_similarity, hl]
    · simp [cosine_similarity, hl, h]
  refine ⟨?_, ?_, ?_, hzero, hnorm⟩
  · intro a b
    by_cases hl : a.length = b.length
    · by_cases hn : normList a = 0 ∨ normList b = 0
      · rw [hnorm a b hn, hnorm b a hn.symm]
      · rw [cosine_similarity_of_ok hl hn,
          cosine_similarity_of_ok hl.symm (fun h => hn h.symm),
          dotList_comm, mul_comm]
    · rw [hzero a b hl, hzero b a (fun h => hl h.symm)]
  · intro a b
    by_cases hl : a.length = b.length
    · by_cases hn : normList a = 0 ∨ normList b = 0
      · rw [hnorm a b hn]; norm_num
      · push_neg at hn
        have ha : 0 < normList a := lt_of_le_of_ne (normList_nonneg a) (Ne.symm hn.1)
        have hb : 0 < normList b := lt_of_le_of_ne (normList_nonneg b) (Ne.symm hn.2)
        have hab : 0 < normList a * normList b := mul_pos ha hb
        have habs : |cosine_similarity a b| ≤ 1 := by
          have hv : cosine_similarity a b = dotList a b / (normList a * normList b) :=
            cosine_similarity_of_ok hl (by push_neg; exact hn)
          rw [hv, abs_div, abs_of_pos hab, div_le_one hab]
          exact abs_dotList_le a b hl
        exact ⟨neg_le_of_abs_le habs, le_of_abs_le habs⟩
    · rw [hzero a b hl]; norm_num
  · intro a hn
    have hs : sumSq a ≠ 0 := sumSq_ne_zero_of_norm hn
    rw [cosine_similarity_of_ok rfl (by push_neg; exact ⟨hn, hn⟩)]
    rw [dotList_self, normList, Real.mul_self_sqrt (sumSq_nonneg a)]
    exact div_self hs

theorem normList_one : normList [(1 : ℝ)] = 1 := by
  rw [normList]
  have : sumSq [(1 : ℝ)] = 1 := by norm_num [sumSq]
  rw [this, Real.sqrt_one]

/-- Witness for C8: the parts of `cosine_similarity_props` that carry
hypotheses, applied at concrete vectors. -/
theorem cosine_similarity_props_witness :
    normList [(1 : ℝ)] ≠ 0 ∧ cosine_similarity [(1 : ℝ)] [(1 : ℝ)] = 1 ∧
    ([(1 : ℝ)].length ≠ ([] : List ℝ).length) ∧
    cosine_similarity [(1 : ℝ)] ([] : List ℝ) = 0 := by
  have h1 : normList [(1 : ℝ)] ≠ 0 := by rw [normList_one]; norm_num
  have h2 : ([(1 : ℝ)].length ≠ ([] : List ℝ).length) := by simp
  exact ⟨h1, cosine_similarity_props.2.2.1 [(1 : ℝ)] h1, h2,
    cosine_similarity_props.2.2.2.1 [(1 : ℝ)] [] h2⟩

/-! ## Vector store search (claims C2, C4)

Shallow embedding of `VectorStore::search` and `VectorStore::insert_vectors`
from `src-tauri/src/knowledge_base/db.rs`.  A stored vector blob is modelled
by its decoded float list (`bytes_to_vector` and `vector_to_bytes` are
mutually inverse; the blob's byte length is `4 * vec.length`). -/

structure VectorRow where
  chunk_id : String
  document_id : String
  kb_id : String
  vec : List ℝ

structure ChunkRow where
  id : String
  document_id : String
  kb_id : String
  content : String
  chunk_index : Int
  token_count : Int
deriving DecidableEq

structure VecDB where
  vectors : List VectorRow
  chunks : List ChunkRow

/-- Model of the SQL
`SELECT v.chunk_id, v.document_id, c.content, v.vector FROM vectors v JOIN
chunks c ON v.chunk_id = c.id WHERE v.kb_id = ?1`: the vector rows of the
base, in stored (scan) order, each joined with its chunk row. -/
def kbJoinRows (db : VecDB) (kb : String) : List (String × String × String × List ℝ) :=
  (db.vectors.filter (fun v => v.kb_id == kb)).filterMap (fun v =>
    (db.chunks.find? (fun c => c.id == v.chunk_id)).map
      (fun c => (v.chunk_id, v.document_id, c.content, v.vec)))

/-- Scoring loop of `VectorStore::search`: cosine similarity per row. -/
noncomputable def scoreRows (q : List ℝ) (rows : List (String × String × String × List ℝ)) :
    List (String × String × String × ℝ) :=
  rows.map (fun r => (r.1, r.2.1, r.2.2.1, cosine_similarity q r.2.2.2))

/-- Score projection of a search result row. -/
def srScore (r : String × String × String × ℝ) : ℝ := r.2.2.2

namespace VectorStore

/-- Model of `VectorStore::search`: full scan of the base's rows, cosine
scores, stable sort descending, then truncation to `top_k`. -/
noncomputable def search (db : VecDB) (kb : String) (q : List ℝ) (k : ℕ) :
    List (String × String × String × ℝ) :=
  (sortDescBy srScore (scoreRows q (kbJoinRows db kb))).take k

end VectorStore

theorem filterMap_length_of_some {α β : Type} (f : α → Option β) :
    ∀ l : List α, (∀ x ∈ l, (f x).isSome) → (l.filterMap f).length = l.length := by
  intro l
  induction l with
  | nil => simp
  | cons x l ih =>
    intro h
    have hx := h x (List.mem_cons_self x l)
    rcases Option.isSome_iff_exists.mp hx with ⟨y, hy⟩
    simp only [List.filterMap_cons, hy, List.length_cons]
    rw [ih (fun z hz => h z (List.mem_cons_of_mem x hz))]

/-- C2. `VectorStore::search` scores every stored row of the base (given the
data-model invariant that each vector row has its chunk row), returns rows
sorted descending by score with equal scores kept in scan order (stable
sort), and truncates to `top_k` only after sorting. -/
theorem vector_search_sorted_stable (db : VecDB) (kb : String) (q : List ℝ) (k : ℕ)
    (href : ∀ v ∈ db.vectors, v.kb_id = kb → ∃ c ∈ db.chunks, c.id = v.chunk_id) :
    ((VectorStore.search db kb q k).Pairwise (fun a b => srScore b ≤ srScore a)) ∧
    (List.Perm (VectorStore.search db kb q ((scoreRows q (kbJoinRows db kb)).length))
      (scoreRows q (kbJoinRows db kb))) ∧
    (∀ s : ℝ, (sortDescBy srScore (scoreRows q (kbJoinRows db kb))).filter
        (fun r => decide (srScore r = s)) =
      (scoreRows q (kbJoinRows db kb)).filter (fun r => decide (srScore r = s))) ∧
    (VectorStore.search db kb q k =
      (sortDescBy srScore (scoreRows q (kbJoinRows db kb))).take k) ∧
    ((kbJoinRows db kb).length = (db.vectors.filter (fun v => v.kb_id == kb)).length) := by
  refine ⟨?_, ?_, ?_, rfl, ?_⟩
  · exact (sortDescBy_sorted srScore _).sublist (List.take_sublist _ _)
  · have hperm := sortDescBy_perm srScore (scoreRows q (kbJoinRows db kb))
    have hlen : (sortDescBy srScore (scoreRows q (kbJoinRows db kb))).length =
        (scoreRows q (kbJoinRows db kb)).length := hperm.length_eq
    unfold VectorStore.search
    rw [← hlen, List.take_length]
    exact hperm
  · intro s
    exact sortDescBy_filter srScore s _
  · unfold kbJoinRows
    apply filterMap_length_of_some
    intro v hv
    have hv2 := List.mem_filter.mp hv
    have hkb : v.kb_id = kb := by simpa using hv2.2
    rcases href v hv2.1 hkb with ⟨c, hc, hcid⟩
    have : (db.chunks.find? (fun c => c.id == v.chunk_id)).isSome := by
      rw [List.find?_isSome]
      exact ⟨c, hc, by simpa using hcid⟩
    rcases Option.isSome_iff_exists.mp this with ⟨c2, hc2⟩
    simp [hc2]

/-- Witness for C2: the theorem applied at a concrete (empty) store. -/
theorem vector_search_sorted_stable_witness :
    (VectorStore.search ⟨[], []⟩ "kb" [] 0).Pairwise (fun a b => srScore b ≤ srScore a) :=
  (vector_search_sorted_stable ⟨[], []⟩ "kb" [] 0 (by simp)).1

/-- Model of building a `vectors` row from one `(chunk_id, document_id,
content, vector)` tuple of `insert_vectors` (the content is not stored). -/
def mkVectorRow (kb : String) (item : String × String × String × List ℝ) : VectorRow :=
  ⟨item.1, item.2.1, kb, item.2.2.2⟩

/-- Model of one `INSERT OR REPLACE INTO vectors` statement: the row with a
conflicting `chunk_id` primary key is replaced, otherwise the row is added. -/
def upsertVector (rows : List VectorRow) (r : VectorRow) : List VectorRow :=
  rows.filter (fun v => !(v.chunk_id == r.chunk_id)) ++ [r]

/-- Byte length of the serialized blob `vector_to_bytes` would store: four
little-endian bytes per `f32`. -/
def blobLen (r : VectorRow) : ℕ := 4 * r.vec.length

namespace VectorStore

/-- Model of `VectorStore::insert_vectors`: a sequential loop of
`INSERT OR REPLACE` statements.  The function performs no dimension check of
any kind; the `Option` result models the `Result` (`none` would be a
database error, which the loop itself never produces). -/
def insert_vectors (rows : List VectorRow) (kb : String)
    (items : List (String × String × String × List ℝ)) : Option (List VectorRow) :=
  some (items.foldl (fun acc it => upsertVector acc (mkVectorRow kb it)) rows)

end VectorStore

/-- C4 counterexample: inserting a length-5 vector into a base whose
`embedding_dim` is 4 is not rejected — the insert succeeds and stores a
20-byte blob, violating the `4 × embedding_dim = 16` invariant, and the
base's vector set changes. -/
theorem insert_vectors_mismatch_cex :
    VectorStore.insert_vectors [] "kb1" [("c1", "d1", "t", [(1 : ℝ), 2, 3, 4, 5])] =
      some [⟨"c1", "d1", "kb1", [(1 : ℝ), 2, 3, 4, 5]⟩] ∧
    blobLen ⟨"c1", "d1", "kb1", [(1 : ℝ), 2, 3, 4, 5]⟩ = 20 ∧ (20 : ℕ) ≠ 4 * 4 := by
  refine ⟨rfl, rfl, by decide⟩

/-- C4 (amended). `insert_vectors` validates nothing: a vector of any float
count is accepted and stored, its blob byte length being `4 ×` its actual
length, with no comparison against the base's `embedding_dim`. -/
theorem insert_vectors_no_validation (rows : List VectorRow) (kb : String)
    (cid did content : String) (vec : List ℝ)
    (hfresh : ∀ r ∈ rows, r.chunk_id ≠ cid) :
    VectorStore.insert_vectors rows kb [(cid, did, content, vec)] =
      some (rows ++ [⟨cid, did, kb, vec⟩]) ∧
    blobLen ⟨cid, did, kb, vec⟩ = 4 * vec.length := by
  constructor
  · unfold VectorStore.insert_vectors
    simp only [List.foldl_cons, List.foldl_nil, upsertVector, mkVectorRow]
    congr 1
    congr 1
    apply List.filter_eq_self.mpr
    intro r hr
    simpa using hfresh r hr
  · rfl

/-- Witness for C4: the amended theorem applied at an empty store. -/
theorem insert_vectors_no_validation_witness :
    VectorStore.insert_vectors [] "kb1" [("c9", "d9", "t", [(0 : ℝ)])] =
      some [⟨"c9", "d9", "kb1", [(0 : ℝ)]⟩] :=
  (insert_vectors_no_validation [] "kb1" "c9" "d9" "t" [(0 : ℝ)] (by simp)).1

/-! ## Retrieval enrichment (claim C5)

Shallow embedding of `Retriever::enrich_chunks` from
`src-tauri/src/knowledge_base/retrieval.rs`.  Scores carry no square roots
at this layer, so `f32` is modelled by `ℚ`. -/

inductive DocStatus where
  | processing
  | completed
  | error
deriving DecidableEq

structure DocRow where
  id : String
  filename : String
  status : DocStatus
deriving DecidableEq

structure MetaDB where
  chunks : List ChunkRow
  documents : List DocRow

structure RetrievedChunkM where
  chunk : ChunkRow
  score : ℚ
  vector_score : Option ℚ
  keyword_score : Option ℚ
  document_filename : String
deriving DecidableEq

/-- Model of `Retriever::enrich_chunks`: for each `(chunk_id, doc_id,
content, score)` search result, look up `chunk_index`/`token_count` by chunk
id (defaulting to `(0, 0)`) and the filename by document id (defaulting to
`"Unknown"`), and build a `RetrievedChunk`.  Both lookups are by id only —
neither consults `documents.status`. -/
def enrich_chunks (db : MetaDB) (results : List (String × String × String × ℚ))
    (kb : String) : List RetrievedChunkM :=
  results.map (fun r =>
    let cmeta : Int × Int :=
      match db.chunks.find? (fun c => c.id == r.1) with
      | some c => (c.chunk_index, c.token_count)
      | none => (0, 0)
    let fn : String :=
      match db.documents.find? (fun d => d.id == r.2.1) with
      | some d => d.filename
      | none => "Unknown"
    { chunk := ⟨r.1, r.2.1, kb, r.2.2.1, cmeta.1, cmeta.2⟩,
      score := r.2.2.2, vector_score := some r.2.2.2, keyword_score := none,
      document_filename := fn })

/-- C5 counterexample: a chunk whose owning document is in status
`processing` is returned by the enrichment step — nothing joins on
`documents.status = 'completed'`, so the chunk is not excluded. -/
theorem enrich_status_cex :
    enrich_chunks ⟨[⟨"c1", "d1", "k1", "hello", 0, 3⟩],
        [⟨"d1", "f.txt", DocStatus.processing⟩]⟩
      [("c1", "d1", "hello", (1 : ℚ))] "k1" =
      [⟨⟨"c1", "d1", "k1", "hello", 0, 3⟩, 1, some 1, none, "f.txt"⟩] ∧
    (⟨"d1", "f.txt", DocStatus.processing⟩ : DocRow).status ≠ DocStatus.completed := by
  refine ⟨by decide, by decide⟩

/-- C5 (amended). `enrich_chunks` filters nothing: it returns exactly one
enriched record per input row, preserving ids and scores, regardless of any
document's status. -/
theorem enrich_no_status_filter (db : MetaDB)
    (results : List (String × String × String × ℚ)) (kb : String) :
    (enrich_chunks db results kb).length = results.length ∧
    (enrich_chunks db results kb).map (fun r => r.chunk.id) =
      results.map (fun r => r.1) ∧
    (enrich_chunks db results kb).map (fun r => r.score) =
      results.map (fun r => r.2.2.2) := by
  refine ⟨by simp [enrich_chunks], ?_, ?_⟩
  · simp only [enrich_chunks, List.map_map]
    rfl
  · simp only [enrich_chunks, List.map_map]
    rfl

/-! ## Reciprocal-rank fusion (claim C1)

Shallow embedding of `Retriever::merge_results` from
`src-tauri/src/knowledge_base/retrieval.rs`.  The Rust code accumulates
fused scores in a `HashMap` whose iteration order is unspecified; it is
modelled here by an association list in insertion order, one legal
realization of the map.  Scores use only field operations, so `f32` is
modelled by `ℚ`. -/

def rcId (r : RetrievedChunkM) : String := r.chunk.id

def rcScore (r : RetrievedChunkM) : ℚ := r.score

/-- One fused-score summand, `1.0 / (60.0 + rank as f32)`. -/
def rrfAt (rank : ℕ) : ℚ := 1 / (60 + (rank : ℚ))

/-- An entry of the `scores` map: key, accumulated record, fused score. -/
abbrev REntry : Type := String × RetrievedChunkM × ℚ

def entryKeys (m : List REntry) : List String := m.map (fun e => e.1)

/-- Model of `HashMap::entry(..).and_modify(f)` acting on the entry with the
given key (keys are unique in a map). -/
def mapModify (m : List REntry) (key : String) (f : RetrievedChunkM × ℚ → RetrievedChunkM × ℚ) :
    List REntry :=
  m.map (fun e => if e.1 == key then (e.1, f e.2) else e)

/-- Model of `entry(key).and_modify(f).or_insert(v)`. -/
def entryOp (m : List REntry) (key : String) (f : RetrievedChunkM × ℚ → RetrievedChunkM × ℚ)
    (v : RetrievedChunkM × ℚ) : List REntry :=
  if key ∈ entryKeys m then mapModify m key f else m ++ [(key, v.1, v.2)]

/-- `c.vector_score = chunk.vector_score.or(Some(chunk.score))`. -/
def setVScore (c : RetrievedChunkM) : RetrievedChunkM :=
  { c with vector_score := c.vector_score.or (some c.score) }

/-- `c.keyword_score = chunk.keyword_score.or(Some(chunk.score))` applied to
the chunk itself (the `or_insert_with` closure of the keyword loop). -/
def setKSelf (c : RetrievedChunkM) : RetrievedChunkM :=
  { c with keyword_score := c.keyword_score.or (some c.score) }

/-- Vector loop of `merge_results`. -/
def vloop : List RetrievedChunkM → ℕ → List REntry → List REntry
  | [], _, m => m
  | c :: cs, rank, m =>
    vloop cs (rank + 1)
      (entryOp m (rcId c) (fun e => (e.1, e.2 + rrfAt rank)) (setVScore c, rrfAt rank))

/-- Keyword loop of `merge_results`. -/
def kloop : List RetrievedChunkM → ℕ → List REntry → List REntry
  | [], _, m => m
  | c :: cs, rank, m =>
    kloop cs (rank + 1)
      (entryOp m (rcId c)
        (fun e => ({ e.1 with keyword_score := c.keyword_score.or (some c.score) },
          e.2 + rrfAt rank))
        (setKSelf c, rrfAt rank))

/-- Model of `Retriever::merge_results`: both RRF loops, collection into
records with the fused score, stable sort descending, truncation. -/
def merge_results (vcs kcs : List RetrievedChunkM) (k : ℕ) : List RetrievedChunkM :=
  let m := kloop kcs 0 (vloop vcs 0 [])
  (sortDescBy rcScore (m.map (fun e => { e.2.1 with score := e.2.2 }))).take k

def sampleChunk (id : String) (score : ℚ) (vs ks : Option ℚ) : RetrievedChunkM :=
  ⟨⟨id, "doc", "kb", "text", 0, 0⟩, score, vs, ks, "file"⟩

/-- C1 counterexample: two chunks with exactly tied fused RRF scores (the
scenario of spec §8: vector ranks `[A, B]`, keyword ranks `[B, A]`), where
`A` has chunk id `"b"` and `B` has chunk id `"a"`.  The fused scores tie but
the returned order is `["b", "a"]` — map insertion order, not the chunk-id
lexicographic order, which would put `"a"` (whose single character precedes
`'b'`) first. -/
theorem merge_results_tiebreak_cex :
    (merge_results
        [sampleChunk "b" 1 (some 1) none, sampleChunk "a" (9/10) (some (9/10)) none]
        [sampleChunk "a" (1/2) none (some (1/2)), sampleChunk "b" (2/5) none (some (2/5))]
        2).map rcId = ["b", "a"] ∧
    (rrfAt 0 + rrfAt 1 = rrfAt 1 + rrfAt 0) ∧
    (('a' : Char) < 'b') := by
  refine ⟨?_, by ring, by decide⟩
  norm_num +decide [merge_results, vloop, kloop, entryOp, mapModify, entryKeys, setVScore,
    setKSelf, rrfAt, sortDescBy, insertDescBy, rcId, rcScore, sampleChunk]

/-- Rank-aware lookup, following the spec's words for one RRF source list:
the record carrying the given chunk id together with its `1/(60 + rank)`
contribution, `rank` being the zero-based position in the list (the `r0`
argument is the rank of the list's head). -/
def rankLook : List RetrievedChunkM → ℕ → String → Option (RetrievedChunkM × ℚ)
  | [], _, _ => none
  | c :: cs, r0, id => if rcId c == id then some (c, rrfAt r0) else rankLook cs (r0 + 1) id

/-- Contribution of one source list: `1/(60 + rank)` if present, else 0. -/
def contribNum : Option (RetrievedChunkM × ℚ) → ℚ
  | some p => p.2
  | none => 0

/-- Record payload the fused result carries for a chunk id, with per-source
`vector_score` and `keyword_score` preserved. -/
def specBase (vcs kcs : List RetrievedChunkM) (rv rk : ℕ) (id : String) : RetrievedChunkM :=
  match rankLook vcs rv id, rankLook kcs rk id with
  | some (vc, _), some (kc, _) =>
      { setVScore vc with keyword_score := kc.keyword_score.or (some kc.score) }
  | some (vc, _), none => setVScore vc
  | none, some (kc, _) => setKSelf kc
  | none, none => ⟨⟨"", "", "", "", 0, 0⟩, 0, none, none, ""⟩

/-- Fused RRF score of a chunk id: the sum over the source lists containing
it of `1/(60 + rank)`, absence contributing zero. -/
def specScore (vcs kcs : List RetrievedChunkM) (rv rk : ℕ) (id : String) : ℚ :=
  contribNum (rankLook vcs rv id) + contribNum (rankLook kcs rk id)

def specEntry (vcs kcs : List RetrievedChunkM) (rv rk : ℕ) (id : String) : REntry :=
  (id, specBase vcs kcs rv rk id, specScore vcs kcs rv rk id)

/-- Spec-side fused record for a chunk id. -/
def fusedRecord (vcs kcs : List RetrievedChunkM) (id : String) : RetrievedChunkM :=
  { specBase vcs kcs 0 0 id with score := specScore vcs kcs 0 0 id }

/-- Candidate ids in first-appearance (map insertion) order: all vector ids,
then the keyword ids not already present. -/
def candidates (vcs kcs : List RetrievedChunkM) : List String :=
  vcs.map rcId ++ (kcs.map rcId).filter (fun i => !((vcs.map rcId).contains i))

/-- Spec-side fusion following §4.7 of the spec (with ties in insertion
order rather than chunk-id order): fused records for all candidate ids,
stably sorted descending by fused score, truncated to `top_k`. -/
def rrfFuseSpec (vcs kcs : List RetrievedChunkM) (k : ℕ) : List RetrievedChunkM :=
  (sortDescBy rcScore ((candidates vcs kcs).map (fusedRecord vcs kcs))).take k

/-- Entries appended by the vector loop when every id is fresh. -/
def vEntries : List RetrievedChunkM → ℕ → List REntry
  | [], _ => []
  | c :: cs, r0 => (rcId c, setVScore c, rrfAt r0) :: vEntries cs (r0 + 1)

/-- Cumulative effect of the keyword loop's `and_modify` on one entry. -/
def applyK : List RetrievedChunkM → ℕ → REntry → REntry
  | [], _, e => e
  | c :: cs, r0, e =>
    if rcId c == e.1 then
      (e.1, { e.2.1 with keyword_score := c.keyword_score.or (some c.score) },
        e.2.2 + rrfAt r0)
    else applyK cs (r0 + 1) e

/-- Entries appended by the keyword loop for ids not already in the map. -/
def kNewEntries (keys : List String) : List RetrievedChunkM → ℕ → List REntry
  | [], _ => []
  | c :: cs, r0 =>
    if keys.contains (rcId c) then kNewEntries keys cs (r0 + 1)
    else (rcId c, setKSelf c, rrfAt r0) :: kNewEntries keys cs (r0 + 1)

theorem vloop_eq : ∀ (vcs : List RetrievedChunkM) (r0 : ℕ) (m : List REntry),
    (∀ c ∈ vcs, rcId c ∉ entryKeys m) → (vcs.map rcId).Nodup →
    vloop vcs r0 m = m ++ vEntries vcs r0 := by
  intro vcs
  induction vcs with
  | nil => intro r0 m _ _; simp [vloop, vEntries]
  | cons c cs ih =>
    intro r0 m hdisj hnd
    have hkey : rcId c ∉ entryKeys m := hdisj c (List.mem_cons_self c cs)
    have hnd2 : (∀ x ∈ cs, ¬ rcId x = rcId c) ∧ (cs.map rcId).Nodup := by
      simpa using hnd
    simp only [vloop, entryOp, if_neg hkey]
    rw [ih (r0 + 1) (m ++ [(rcId c, setVScore c, rrfAt r0)]) ?_ hnd2.2]
    · simp [vEntries]
    · intro c2 hc2
      intro hmem
      have hmem2 : rcId c2 ∈ entryKeys m ++ entryKeys [(rcId c, setVScore c, rrfAt r0)] := by
        simpa [entryKeys] using hmem
      rcases List.mem_append.mp hmem2 with h1 | h2
      · exact hdisj c2 (List.mem_cons_of_mem c hc2) h1
      · have h3 : rcId c2 = rcId c := by simpa [entryKeys] using h2
        exact hnd2.1 c2 hc2 h3

theorem entryKeys_vEntries : ∀ (vcs : List RetrievedChunkM) (r0 : ℕ),
    entryKeys (vEntries vcs r0) = vcs.map rcId := by
  intro vcs
  induction vcs with
  | nil => intro r0; simp [vEntries, entryKeys]
  | cons c cs ih =>
    intro r0
    simp only [vEntries, entryKeys, List.map_cons] at *
    rw [← ih (r0 + 1)]

theorem rankLook_none : ∀ (cs : List RetrievedChunkM) (r0 : ℕ) (id : String),
    id ∉ cs.map rcId → rankLook cs r0 id = none := by
  intro cs
  induction cs with
  | nil => intro r0 id _; rfl
  | cons c cs ih =>
    intro r0 id hid
    simp only [List.map_cons, List.mem_cons, not_or] at hid
    have hb : (rcId c == id) = false := by
      simpa using fun h => hid.1 h.symm
    simp only [rankLook, hb, Bool.false_eq_true, if_false]
    exact ih (r0 + 1) id hid.2

theorem applyK_eq : ∀ (kcs : List RetrievedChunkM) (r0 : ℕ) (e : REntry),
    applyK kcs r0 e =
      match rankLook kcs r0 e.1 with
      | some (kc, q) =>
          (e.1, { e.2.1 with keyword_score := kc.keyword_score.or (some kc.score) },
            e.2.2 + q)
      | none => e := by
  intro kcs
  induction kcs with
  | nil => intro r0 e; rfl
  | cons c cs ih =>
    intro r0 e
    by_cases h : rcId c = e.1
    · simp [applyK, rankLook, h]
    · have hb : (rcId c == e.1) = false := by simpa using h
      simp only [applyK, rankLook, hb, Bool.false_eq_true, if_false]
      exact ih (r0 + 1) e

theorem applyK_skip (kcs : List RetrievedChunkM) (r0 : ℕ) (e : REntry)
    (h : e.1 ∉ kcs.map rcId) : applyK kcs r0 e = e := by
  rw [applyK_eq, rankLook_none kcs r0 e.1 h]

theorem mapModify_keys (m : List REntry) (key : String)
    (f : RetrievedChunkM × ℚ → RetrievedChunkM × ℚ) :
    entryKeys (mapModify m key f) = entryKeys m := by
  simp only [entryKeys, mapModify, List.map_map]
  apply List.map_congr_left
  intro e _
  by_cases h : e.1 = key
  · simp [h]
  · simp [h]

theorem kNewEntries_indep (x : String) : ∀ (cs : List RetrievedChunkM) (keys : List String)
    (r0 : ℕ), (∀ c ∈ cs, rcId c ≠ x) →
    kNewEntries (keys ++ [x]) cs r0 = kNewEntries keys cs r0 := by
  intro cs
  induction cs with
  | nil => intro keys r0 _; rfl
  | cons c cs ih =>
    intro keys r0 h
    have hc : rcId c ≠ x := h c (List.mem_cons_self c cs)
    have hrest : ∀ c2 ∈ cs, rcId c2 ≠ x := fun c2 hc2 => h c2 (List.mem_cons_of_mem c hc2)
    have hcont : (keys ++ [x]).contains (rcId c) = keys.contains (rcId c) := by
      by_cases hk : rcId c ∈ keys
      · simp [hk]
      · simp [hk, hc]
    simp only [kNewEntries, hcont]
    by_cases hk : keys.contains (rcId c)
    · simp [hk, ih keys (r0 + 1) hrest]
    · simp only [hk, if_false, Bool.false_eq_true]
      rw [ih keys (r0 + 1) hrest]

theorem kloop_eq (kcs : List RetrievedChunkM) (hk : (kcs.map rcId).Nodup) :
    ∀ (r0 : ℕ) (m : List REntry),
    kloop kcs r0 m = m.map (applyK kcs r0) ++ kNewEntries (entryKeys m) kcs r0 := by
  induction kcs with
  | nil =>
    intro r0 m
    simp [kloop, applyK, kNewEntries]
  | cons c cs ih =>
    intro r0 m
    have hnd : (∀ x ∈ cs, ¬ rcId x = rcId c) ∧ (cs.map rcId).Nodup := by simpa using hk
    by_cases hmem : rcId c ∈ entryKeys m
    · simp only [kloop, entryOp, if_pos hmem]
      rw [ih hnd.2 (r0 + 1) (mapModify m (rcId c) _)]
      rw [mapModify_keys]
      have hmap : (mapModify m (rcId c)
          (fun e => ({ e.1 with keyword_score := c.keyword_score.or (some c.score) },
            e.2 + rrfAt r0))).map (applyK cs (r0 + 1)) =
          m.map (applyK (c :: cs) r0) := by
        simp only [mapModify, List.map_map]
        apply List.map_congr_left
        intro e _
        by_cases he : e.1 = rcId c
        · have hskip : rcId c ∉ cs.map rcId := by
            intro hmem2
            rcases List.mem_map.mp hmem2 with ⟨c2, hc2, hc2e⟩
            exact hnd.1 c2 hc2 hc2e
          simp only [Function.comp_apply, he, beq_self_eq_true, if_true]
          rw [applyK_skip cs (r0 + 1) _ hskip]
          simp [applyK, he]
        · have hb : (e.1 == rcId c) = false := by simpa using he
          have hb2 : (rcId c == e.1) = false := by simpa using fun h => he h.symm
          simp only [Function.comp_apply, hb, Bool.false_eq_true, if_false, applyK, hb2]
      rw [hmap]
      have hknew : kNewEntries (entryKeys m) (c :: cs) r0 =
          kNewEntries (entryKeys m) cs (r0 + 1) := by
        simp [kNewEntries, hmem]
      rw [hknew]
    · simp only [kloop, entryOp, if_neg hmem]
      rw [ih hnd.2 (r0 + 1) (m ++ [(rcId c, setKSelf c, rrfAt r0)])]
      have hmap : (m ++ [(rcId c, setKSelf c, rrfAt r0)]).map (applyK cs (r0 + 1)) =
          m.map (applyK (c :: cs) r0) ++ [(rcId c, setKSelf c, rrfAt r0)] := by
        rw [List.map_append]
        congr 1
        · apply List.map_congr_left
          intro e he
          have hne : e.1 ≠ rcId c := by
            intro h
            exact hmem (h ▸ List.mem_map_of_mem (fun e2 => e2.1) he)
          have hb2 : (rcId c == e.1) = false := by simpa using fun h => hne h.symm
          simp only [applyK, hb2, Bool.false_eq_true, if_false]
        · have hskip : rcId c ∉ cs.map rcId := by
            intro hmem2
            rcases List.mem_map.mp hmem2 with ⟨c2, hc2, hc2e⟩
            exact hnd.1 c2 hc2 hc2e
          simp only [List.map_cons, List.map_nil]
          rw [applyK_skip cs (r0 + 1) _ hskip]
      rw [hmap]
      have hkeys : entryKeys (m ++ [(rcId c, setKSelf c, rrfAt r0)]) =
          entryKeys m ++ [rcId c] := by simp [entryKeys]
      rw [hkeys]
      have hknew : kNewEntries (entryKeys m ++ [rcId c]) cs (r0 + 1) =
          kNewEntries (entryKeys m) cs (r0 + 1) := by
        apply kNewEntries_indep
        intro c2 hc2
        exact fun h => hnd.1 c2 hc2 h
      rw [hknew]
      simp [kNewEntries, hmem]

theorem vEntries_map_applyK (kcs : List RetrievedChunkM) (rk : ℕ) :
    ∀ (vcs : List RetrievedChunkM) (rv : ℕ), (vcs.map rcId).Nodup →
    (vEntries vcs rv).map (applyK kcs rk) =
      (vcs.map rcId).map (fun id => specEntry vcs kcs rv rk id) := by
  intro vcs
  induction vcs with
  | nil => intro rv _; simp [vEntries]
  | cons vc rest ih =>
    intro rv hnd
    have hnd2 : (∀ x ∈ rest, ¬ rcId x = rcId vc) ∧ (rest.map rcId).Nodup := by simpa using hnd
    simp only [vEntries, List.map_cons]
    congr 1
    · rw [applyK_eq]
      have hv : rankLook (vc :: rest) rv (rcId vc) = some (vc, rrfAt rv) := by
        simp [rankLook]
      cases hkl : rankLook kcs rk (rcId vc) with
      | none => simp [specEntry, specBase, specScore, hv, hkl, contribNum]
      | some p =>
        cases p with
        | mk kc q => simp [specEntry, specBase, specScore, hv, hkl, contribNum]
    · rw [ih (rv + 1) hnd2.2]
      apply List.map_congr_left
      intro id hid
      have hne : ¬ rcId vc = id := by
        rcases List.mem_map.mp hid with ⟨c2, hc2, hc2e⟩
        exact fun h => hnd2.1 c2 hc2 (hc2e ▸ h.symm)
      have hb : (rcId vc == id) = false := by simpa using hne
      simp [specEntry, specBase, specScore, rankLook, hb]

theorem kNewEntries_eq (vcs : List RetrievedChunkM) :
    ∀ (kcs : List RetrievedChunkM) (rk : ℕ), (kcs.map rcId).Nodup →
    kNewEntries (vcs.map rcId) kcs rk =
      ((kcs.map rcId).filter (fun i => !((vcs.map rcId).contains i))).map
        (fun id => specEntry vcs kcs 0 rk id) := by
  intro kcs
  induction kcs with
  | nil => intro rk _; simp [kNewEntries]
  | cons kc rest ih =>
    intro rk hnd
    have hnd2 : (∀ x ∈ rest, ¬ rcId x = rcId kc) ∧ (rest.map rcId).Nodup := by simpa using hnd
    have htail : ∀ id ∈ (rest.map rcId).filter (fun i => !((vcs.map rcId).contains i)),
        specEntry vcs rest 0 (rk + 1) id = specEntry vcs (kc :: rest) 0 rk id := by
      intro id hid
      have hidm : id ∈ rest.map rcId := (List.mem_filter.mp hid).1
      have hne : ¬ rcId kc = id := by
        rcases List.mem_map.mp hidm with ⟨c2, hc2, hc2e⟩
        exact fun h => hnd2.1 c2 hc2 (hc2e ▸ h.symm)
      have hb : (rcId kc == id) = false := by simpa using hne
      simp [specEntry, specBase, specScore, rankLook, hb]
    by_cases hmem : rcId kc ∈ vcs.map rcId
    · have hcont : (vcs.map rcId).contains (rcId kc) = true := by simpa using hmem
      simp only [kNewEntries, hcont, if_true, List.map_cons, List.filter_cons,
        Bool.not_true, Bool.false_eq_true, if_false]
      rw [ih (rk + 1) hnd2.2]
      exact (List.map_congr_left htail).symm ▸ rfl
    · have hcont : (vcs.map rcId).contains (rcId kc) = false := by simpa using hmem
      simp only [kNewEntries, hcont, Bool.false_eq_true, if_false, List.map_cons,
        List.filter_cons, Bool.not_false, if_true]
      rw [ih (rk + 1) hnd2.2]
      have hhead : (rcId kc, setKSelf kc, rrfAt rk) =
          specEntry vcs (kc :: rest) 0 rk (rcId kc) := by
        have hvnone : rankLook vcs 0 (rcId kc) = none := rankLook_none vcs 0 (rcId kc) hmem
        have hkhead : rankLook (kc :: rest) rk (rcId kc) = some (kc, rrfAt rk) := by
          simp [rankLook]
        simp [specEntry, specBase, specScore, hvnone, hkhead, contribNum]
      rw [hhead, List.map_congr_left htail]

theorem merge_map_eq (vcs kcs : List RetrievedChunkM)
    (hv : (vcs.map rcId).Nodup) (hk : (kcs.map rcId).Nodup) :
    kloop kcs 0 (vloop vcs 0 []) =
      (candidates vcs kcs).map (fun id => specEntry vcs kcs 0 0 id) := by
  rw [vloop_eq vcs 0 [] (by simp [entryKeys]) hv]
  simp only [List.nil_append]
  rw [kloop_eq kcs hk 0 (vEntries vcs 0), entryKeys_vEntries]
  rw [vEntries_map_applyK kcs 0 vcs 0 hv]
  rw [kNewEntries_eq vcs kcs 0 hk]
  rw [candidates, List.map_append]

/-- C1 (amended). With distinct chunk ids within each source list,
`merge_results` returns exactly the spec's RRF fusion: each candidate chunk
carries the fused score `Σ 1/(60 + rank)` over the source lists containing
it with per-source `vector_score`/`keyword_score` preserved, the output is
sorted descending by fused score and truncated to `top_k` after sorting —
but ties are returned in map-insertion order (vector ids first, then new
keyword ids), not in chunk-id lexicographic order. -/
theorem merge_results_rrf_amended (vcs kcs : List RetrievedChunkM) (k : ℕ)
    (hv : (vcs.map rcId).Nodup) (hk : (kcs.map rcId).Nodup) :
    merge_results vcs kcs k = rrfFuseSpec vcs kcs k ∧
    (merge_results vcs kcs k).Pairwise (fun a b => rcScore b ≤ rcScore a) ∧
    (∀ s : ℚ, (sortDescBy rcScore ((candidates vcs kcs).map (fusedRecord vcs kcs))).filter
        (fun r => decide (rcScore r = s)) =
      ((candidates vcs kcs).map (fusedRecord vcs kcs)).filter
        (fun r => decide (rcScore r = s))) := by
  have hmap : (kloop kcs 0 (vloop vcs 0 [])).map (fun e => { e.2.1 with score := e.2.2 }) =
      (candidates vcs kcs).map (fusedRecord vcs kcs) := by
    rw [merge_map_eq vcs kcs hv hk, List.map_map]
    apply List.map_congr_left
    intro id _
    rfl
  have hmr : merge_results vcs kcs k =
      (sortDescBy rcScore ((candidates vcs kcs).map (fusedRecord vcs kcs))).take k := by
    simp only [merge_results]
    rw [hmap]
  refine ⟨hmr, ?_, ?_⟩
  · rw [hmr]
    exact (sortDescBy_sorted rcScore _).sublist (List.take_sublist _ _)
  · intro s
    exact sortDescBy_filter rcScore s _

/-- Witness for C1: the amended theorem applied at a concrete input. -/
theorem merge_results_rrf_amended_witness :
    merge_results [sampleChunk "x" 1 (some 1) none] [] 1 =
      rrfFuseSpec [sampleChunk "x" 1 (some 1) none] [] 1 :=
  (merge_results_rrf_amended [sampleChunk "x" 1 (some 1) none] [] 1
    (by simp [sampleChunk, rcId]) (by simp)).1

/-! ## SSE stream decoding (claims C3, C10)

Shallow embedding of `parse_sse_line` and the event-emitting loop of
`stream_message` from `src-tauri/src/commands/llm.rs`.  Rust strings are
modelled as `List Char`; `serde_json::from_str` is modelled by a JSON parser
for the object/array/string/literal/number fragment, with `serde_json`'s
`Value` indexing semantics (missing key or wrong shape yields `Null`). -/

abbrev Str : Type := List Char

def strOf (s : String) : Str := s.data

/-- The `{` and `}` characters, by code point. -/
def lbraceChar : Char := Char.ofNat 123

def rbraceChar : Char := Char.ofNat 125

inductive JVal where
  | jnull : JVal
  | jbool : Bool → JVal
  | jnum : Int → JVal
  | jstr : Str → JVal
  | jarr : List JVal → JVal
  | jobj : List (Str × JVal) → JVal

/-- `value["key"]` on a `serde_json::Value`: field of an object, else Null. -/
def jget : JVal → Str → JVal
  | JVal.jobj fields, key =>
    match fields.find? (fun f => f.1 == key) with
    | some f => f.2
    | none => JVal.jnull
  | _, _ => JVal.jnull

/-- `value[i]` on a `serde_json::Value`: array element, else Null. -/
def jidx : JVal → ℕ → JVal
  | JVal.jarr xs, i => xs.getD i JVal.jnull
  | _, _ => JVal.jnull

/-- `value.as_str()`. -/
def jasStr : JVal → Option Str
  | JVal.jstr s => some s
  | _ => none

def isJsonWs (c : Char) : Bool := c == ' ' || c == '\t' || c == '\n' || c == '\r'

def skipWs (s : Str) : Str := s.dropWhile isJsonWs

/-- Body of a JSON string literal after the opening quote, with the basic
escape sequences. -/
def parseStrBody : Str → Option (Str × Str)
  | [] => none
  | c :: rest =>
    if c == '"' then some ([], rest)
    else if c == '\\' then
      match rest with
      | [] => none
      | e :: rest2 =>
        let ec : Option Char :=
          if e == '"' then some '"'
          else if e == '\\' then some '\\'
          else if e == '/' then some '/'
          else if e == 'n' then some '\n'
          else if e == 't' then some '\t'
          else if e == 'r' then some '\r'
          else none
        match ec with
        | none => none
        | some ch => (parseStrBody rest2).map (fun p => (ch :: p.1, p.2))
    else (parseStrBody rest).map (fun p => (c :: p.1, p.2))

def takeDigits (s : Str) : Str × Str := (s.takeWhile Char.isDigit, s.dropWhile Char.isDigit)

def digitsToNat (ds : Str) : ℕ := ds.foldl (fun n c => n * 10 + (c.toNat - 48)) 0

/-- A JSON number (integer part retained; SSE extraction never reads
numbers as strings, so only well-formedness matters). -/
def parseNumRest (s : Str) : Option (Int × Str) :=
  let signed : Bool × Str :=
    match s with
    | '-' :: r => (true, r)
    | _ => (false, s)
  match takeDigits signed.2 with
  | ([], _) => none
  | (ds, r1) =>
    let n : Int := if signed.1 then -(digitsToNat ds : Int) else (digitsToNat ds : Int)
    let afterFrac : Option Str :=
      match r1 with
      | '.' :: rf =>
        match takeDigits rf with
        | ([], _) => none
        | (_, rr) => some rr
      | _ => some r1
    match afterFrac with
    | none => none
    | some r2 =>
      match r2 with
      | 'e' :: re | 'E' :: re =>
        let s2 : Str :=
          match re with
          | '+' :: rr => rr
          | '-' :: rr => rr
          | _ => re
        (match takeDigits s2 with
        | ([], _) => none
        | (_, rr) => some (n, rr))
      | _ => some (n, r2)

mutual

def parseV : ℕ → Str → Option (JVal × Str)
  | 0, _ => none
  | fuel + 1, s =>
    match skipWs s with
    | [] => none
    | c :: rest =>
      if c == lbraceChar then
        match skipWs rest with
        | c2 :: r2 =>
          if c2 == rbraceChar then some (JVal.jobj [], r2)
          else (parseObjItems fuel rest).map (fun p => (JVal.jobj p.1, p.2))
        | [] => none
      else if c == '[' then
        match skipWs rest with
        | c2 :: r2 =>
          if c2 == ']' then some (JVal.jarr [], r2)
          else (parseArrItems fuel rest).map (fun p => (JVal.jarr p.1, p.2))
        | [] => none
      else if c == '"' then
        (parseStrBody rest).map (fun p => (JVal.jstr p.1, p.2))
      else if c == 't' then
        if rest.take 3 == ['r', 'u', 'e'] then some (JVal.jbool true, rest.drop 3) else none
      else if c == 'f' then
        if rest.take 4 == ['a', 'l', 's', 'e'] then some (JVal.jbool false, rest.drop 4)
        else none
      else if c == 'n' then
        if rest.take 3 == ['u', 'l', 'l'] then some (JVal.jnull, rest.drop 3) else none
      else
        match parseNumRest (c :: rest) with
        | some (n, r) => some (JVal.jnum n, r)
        | none => none

def parseObjItems : ℕ → Str → Option (List (Str × JVal) × Str)
  | 0, _ => none
  | fuel + 1, s =>
    match skipWs s with
    | c :: rest =>
      if c == '"' then
        match parseStrBody rest with
        | none => none
        | some (key, r1) =>
          match skipWs r1 with
          | ':' :: r2 =>
            (match parseV fuel r2 with
            | none => none
            | some (v, r3) =>
              match skipWs r3 with
              | c4 :: r4 =>
                if c4 == ',' then
                  (parseObjItems fuel r4).map (fun p => ((key, v) :: p.1, p.2))
                else if c4 == rbraceChar then some ([(key, v)], r4)
                else none
              | [] => none)
          | _ => none
      else none
    | [] => none

def parseArrItems : ℕ → Str → Option (List JVal × Str)
  | 0, _ => none
  | fuel + 1, s =>
    match parseV fuel s with
    | none => none
    | some (v, r1) =>
      match skipWs r1 with
      | c2 :: r2 =>
        if c2 == ',' then (parseArrItems fuel r2).map (fun p => (v :: p.1, p.2))
        else if c2 == ']' then some ([v], r2)
        else none
      | [] => none

end

/-- Model of `serde_json::from_str`: a full parse with only trailing
whitespace allowed. -/
def parseJson (s : Str) : Option JVal :=
  match parseV (s.length + 1) s with
  | some (v, rest) => if (skipWs rest).isEmpty then some v else none
  | none => none

/-- Model of `parse_sse_line` in `llm.rs`: `None` unless the line starts
with `data: `; `Some("")` for the literal `[DONE]`; otherwise JSON field
extraction per provider (`delta.text` for anthropic,
`choices[0].delta.content` for everyone else), `None` on bad JSON or a
missing/non-string field. -/
def parse_sse_line (provider line : Str) : Option Str :=
  if (strOf "data: ").isPrefixOf line then
    let data := line.drop 6
    if data == strOf "[DONE]" then some []
    else
      match parseJson data with
      | none => none
      | some j =>
        if provider == strOf "anthropic" then
          jasStr (jget (jget j (strOf "delta")) (strOf "text"))
        else
          jasStr (jget (jget (jidx (jget j (strOf "choices")) 0) (strOf "delta"))
            (strOf "content"))
  else none

structure StreamChunkEvt where
  session_id : Str
  message_id : Str
  content : Str
  done : Bool
deriving DecidableEq

/-- Rust `str::trim`. -/
def trimStr (s : Str) : Str :=
  ((s.dropWhile Char.isWhitespace).reverse.dropWhile Char.isWhitespace).reverse

/-- Events the loop body of `stream_message` emits for one complete,
trimmed line: nothing for an empty or unparseable line, a `done = true`
event when the extracted content is empty (which includes `[DONE]`), else
one content event. -/
def lineEvents (provider sid mid line : Str) : List StreamChunkEvt :=
  if line.isEmpty then []
  else
    match parse_sse_line provider line with
    | none => []
    | some content =>
      if content.isEmpty then [⟨sid, mid, [], true⟩]
      else [⟨sid, mid, content, false⟩]

/-- Splitting the line buffer at each newline: the complete lines (trimmed,
as the loop does) and the retained tail. -/
def drainLines (buffer : Str) : List Str × Str :=
  let parts := buffer.splitOn '\n'
  (parts.dropLast.map trimStr, (parts.getLast?).getD [])

/-- One `stream.next()` iteration: append the chunk to the buffer, process
every complete line. -/
def feedChunk (provider sid mid : Str) (st : List StreamChunkEvt × Str) (chunk : Str) :
    List StreamChunkEvt × Str :=
  let buffer := st.2 ++ chunk
  let lr := drainLines buffer
  (st.1 ++ (lr.1.map (lineEvents provider sid mid)).flatten, lr.2)

/-- Model of the whole successful-response decode loop of `stream_message`:
all chunk iterations, then the unconditional final `done = true` event. -/
def stream_message_events (provider sid mid : Str) (chunks : List Str) :
    List StreamChunkEvt :=
  (chunks.foldl (feedChunk provider sid mid) ([], [])).1 ++ [⟨sid, mid, [], true⟩]

/-- The §8 scenario-4 byte sequence. -/
def scenario4 : Str :=
  strOf "data: \x7b\"choices\":[\x7b\"delta\":\x7b\"content\":\"he\"\x7d\x7d]\x7d\n\ndata: \x7b\"choices\":[\x7b\"delta\":\x7b\"content\":\"llo\"\x7d\x7d]\x7d\n\ndata: [DONE]\n\n"

/-- Scenario 4 without the `data: [DONE]` line. -/
def scenario4nd : Str :=
  strOf "data: \x7b\"choices\":[\x7b\"delta\":\x7b\"content\":\"he\"\x7d\x7d]\x7d\n\ndata: \x7b\"choices\":[\x7b\"delta\":\x7b\"content\":\"llo\"\x7d\x7d]\x7d\n\n"

theorem getLast?_append_singleton {α : Type} (l : List α) (a : α) :
    (l ++ [a]).getLast? = some a := by
  rw [List.getLast?_append_cons, List.getLast?_singleton]

/-- C3 counterexample: on the §8 scenario-4 byte sequence the decoder emits
the two content events and then TWO `done = true` events — one for the
`data: [DONE]` line and one unconditional final event — not a single one,
so "exactly one done=true event per streaming request" fails. -/
theorem stream_done_single_cex :
    stream_message_events (strOf "openai") (strOf "s") (strOf "m") [scenario4] =
      [⟨strOf "s", strOf "m", strOf "he", false⟩,
       ⟨strOf "s", strOf "m", strOf "llo", false⟩,
       ⟨strOf "s", strOf "m", [], true⟩,
       ⟨strOf "s", strOf "m", [], true⟩] ∧
    ((stream_message_events (strOf "openai") (strOf "s") (strOf "m")
        [scenario4]).filter (fun e => e.done)).length = 2 := by
  refine ⟨by decide, by decide⟩

/-- C3 (amended). The decoder always emits a final `done = true` event after
the body ends, so at least one `done` is guaranteed; on scenario 4 the
events are `"he"`, `"llo"` and then two `done = true` events (the `[DONE]`
line itself also produces one); when the server omits `[DONE]` the same
stream produces `"he"`, `"llo"` and exactly one `done = true`. -/
theorem stream_done_amended :
    (∀ (provider sid mid : Str) (chunks : List Str),
      (stream_message_events provider sid mid chunks).getLast? =
        some ⟨sid, mid, [], true⟩) ∧
    (((stream_message_events (strOf "openai") (strOf "s") (strOf "m")
        [scenario4]).filter (fun e => e.done)).length = 2) ∧
    (stream_message_events (strOf "openai") (strOf "s") (strOf "m") [scenario4nd] =
      [⟨strOf "s", strOf "m", strOf "he", false⟩,
       ⟨strOf "s", strOf "m", strOf "llo", false⟩,
       ⟨strOf "s", strOf "m", [], true⟩]) ∧
    (((stream_message_events (strOf "openai") (strOf "s") (strOf "m")
        [scenario4nd]).filter (fun e => e.done)).length = 1) := by
  refine ⟨?_, by decide, by decide, by decide⟩
  intro provider sid mid chunks
  exact getLast?_append_singleton _ _

/-- C10. For every provider `parse_sse_line` maps `data: [DONE]` to
`Some("")`; a `data:` line whose extracted content field is the empty
string also yields `Some("")` (OpenAI and anthropic shapes alike); the loop
turns every `Some("")` into a `done = true` event; hence a fragment with
empty delta content produces a premature `done = true` event, here emitted
before the later real content of the same stream. -/
theorem parse_sse_empty_done :
    (∀ p : Str, parse_sse_line p (strOf "data: [DONE]") = some []) ∧
    (parse_sse_line (strOf "openai")
      (strOf "data: \x7b\"choices\":[\x7b\"delta\":\x7b\"content\":\"\"\x7d\x7d]\x7d") =
      some []) ∧
    (parse_sse_line (strOf "anthropic")
      (strOf "data: \x7b\"delta\":\x7b\"text\":\"\"\x7d\x7d") = some []) ∧
    (∀ (p sid mid line : Str), parse_sse_line p line = some [] →
      lineEvents p sid mid line = [⟨sid, mid, [], true⟩]) ∧
    (stream_message_events (strOf "openai") (strOf "s") (strOf "m")
      [strOf "data: \x7b\"choices\":[\x7b\"delta\":\x7b\"content\":\"\"\x7d\x7d]\x7d\n\ndata: \x7b\"choices\":[\x7b\"delta\":\x7b\"content\":\"x\"\x7d\x7d]\x7d\n"] =
      [⟨strOf "s", strOf "m", [], true⟩,
       ⟨strOf "s", strOf "m", strOf "x", false⟩,
       ⟨strOf "s", strOf "m", [], true⟩]) := by
  refine ⟨fun p => rfl, by decide, by decide, ?_, by decide⟩
  intro p sid mid line hparse
  match line with
  | [] =>
    have hpre : ((strOf "data: ").isPrefixOf ([] : Str)) = false := by decide
    simp [parse_sse_line, hpre] at hparse
  | c :: rest =>
    simp only [lineEvents, List.isEmpty_cons, Bool.false_eq_true, if_false, hparse,
      List.isEmpty_nil, if_true]

/-- Witness for C10: the loop-shape part of the theorem applied at the
concrete `[DONE]` line. -/
theorem parse_sse_empty_done_witness :
    lineEvents (strOf "x") (strOf "s") (strOf "m") (strOf "data: [DONE]") =
      [⟨strOf "s", strOf "m", [], true⟩] :=
  parse_sse_empty_done.2.2.2.1 (strOf "x") (strOf "s") (strOf "m")
    (strOf "data: [DONE]") (by decide)

/-! ## Ingestion and document counting (claims C6, C9)

Shallow embedding of the state effects of `create_knowledge_base`,
`import_document` and `delete_document` from
`src-tauri/src/knowledge_base/commands.rs`, restricted to the columns the
claims are about: each knowledge base's `document_count` and each document's
`kb_id`, `status` and `error_message`. -/

inductive ImportOutcome where
  | parseFail : String → ImportOutcome
  | embedFail : ImportOutcome
  | vecFail : ImportOutcome
  | success : ImportOutcome
deriving DecidableEq

structure DocR where
  id : String
  kb_id : String
  status : DocStatus
  error_message : Option String
deriving DecidableEq

structure IngestDB where
  kbs : List (String × Int)
  docs : List DocR
deriving DecidableEq

def kbIds (st : IngestDB) : List String := st.kbs.map (fun k => k.1)

/-- `UPDATE documents SET status = ?, error_message = ? WHERE id = ?`. -/
def setDocStatus (docs : List DocR) (doc_id : String) (s : DocStatus)
    (msg : Option String) : List DocR :=
  docs.map (fun d => if d.id == doc_id then { d with status := s, error_message := msg } else d)

/-- `UPDATE knowledge_bases SET document_count = document_count + delta
WHERE id = ?` — applied unconditionally, whether or not the row exists. -/
def bumpCount (kbs : List (String × Int)) (kb_id : String) (delta : Int) :
    List (String × Int) :=
  kbs.map (fun k => if k.1 == kb_id then (k.1, k.2 + delta) else k)

/-- Model of `create_knowledge_base`: inserts a row with
`document_count = 0`. -/
def create_knowledge_base (st : IngestDB) (kb_id : String) : IngestDB :=
  ⟨st.kbs ++ [(kb_id, 0)], st.docs⟩

/-- Model of `import_document`'s state effect.  The knowledge-base lookup
fails fast before any insert.  The Document row is inserted in status
`processing`; a parse failure updates it to `error` with the message; an
embedding or vector-store failure returns the error WITHOUT touching the
row (it stays `processing`); success sets `completed` and increments the
base's `document_count`.  The `Bool` is success of the command. -/
def import_document (st : IngestDB) (kb_id doc_id : String) (outcome : ImportOutcome) :
    IngestDB × Bool :=
  if kb_id ∈ kbIds st then
    let docs1 := st.docs ++ [⟨doc_id, kb_id, DocStatus.processing, none⟩]
    match outcome with
    | ImportOutcome.parseFail msg =>
      (⟨st.kbs, setDocStatus docs1 doc_id DocStatus.error (some msg)⟩, false)
    | ImportOutcome.embedFail => (⟨st.kbs, docs1⟩, false)
    | ImportOutcome.vecFail => (⟨st.kbs, docs1⟩, false)
    | ImportOutcome.success =>
      (⟨bumpCount st.kbs kb_id 1, setDocStatus docs1 doc_id DocStatus.completed none⟩, true)
  else (st, false)

/-- Model of `delete_document`: deletes the document row by id (the SQL is
not filtered by `kb_id`) and decrements the passed base's `document_count`
unconditionally, even if no row was deleted. -/
def delete_document (st : IngestDB) (doc_id kb_id : String) : IngestDB :=
  ⟨bumpCount st.kbs kb_id (-1), st.docs.filter (fun d => !(d.id == doc_id))⟩

inductive KbOp where
  | createKB : String → KbOp
  | importDoc : String → String → ImportOutcome → KbOp
  | deleteDoc : String → String → KbOp
deriving DecidableEq

def applyOp (st : IngestDB) : KbOp → IngestDB
  | KbOp.createKB k => create_knowledge_base st k
  | KbOp.importDoc k d oc => (import_document st k d oc).1
  | KbOp.deleteDoc d k => delete_document st d k

def runOps (st : IngestDB) (ops : List KbOp) : IngestDB := ops.foldl applyOp st

/-- The claimed invariant: every base's `document_count` equals the number
of Document rows referencing it. -/
def countInv (st : IngestDB) : Prop :=
  ∀ kb ∈ st.kbs, kb.2 = (st.docs.countP (fun d => d.kb_id == kb.1) : Int)

/-- Auxiliary well-formedness: unique document ids, unique base ids, and
every document's `kb_id` references an existing base. -/
def auxInv (st : IngestDB) : Prop :=
  (st.docs.map (fun d => d.id)).Nodup ∧ (st.kbs.map (fun k => k.1)).Nodup ∧
  (∀ d ∈ st.docs, d.kb_id ∈ kbIds st)

/-- Side conditions under which an operation is benign. -/
def goodOpB (st : IngestDB) : KbOp → Bool
  | KbOp.createKB k => !((kbIds st).contains k)
  | KbOp.importDoc k d oc =>
    (oc == ImportOutcome.success) && (kbIds st).contains k &&
      st.docs.all (fun x => !(x.id == d))
  | KbOp.deleteDoc d k => st.docs.any (fun x => x.id == d && x.kb_id == k)

def goodOpsB : IngestDB → List KbOp → Bool
  | _, [] => true
  | st, op :: ops => goodOpB st op && goodOpsB (applyOp st op) ops

def docStatusOf (st : IngestDB) (d : String) : Option DocStatus :=
  (st.docs.find? (fun x => x.id == d)).map (fun x => x.status)

def docErrMsgOf (st : IngestDB) (d : String) : Option (Option String) :=
  (st.docs.find? (fun x => x.id == d)).map (fun x => x.error_message)

/-- C6 counterexample: an embedding failure during import leaves the
freshly inserted Document row in status `processing` with no error
message — it is never updated to `error`, although the command returns the
error. -/
theorem import_embed_fail_cex :
    import_document ⟨[("k", 0)], []⟩ "k" "d" ImportOutcome.embedFail =
      (⟨[("k", 0)], [⟨"d", "k", DocStatus.processing, none⟩]⟩, false) ∧
    docStatusOf ⟨[("k", 0)], [⟨"d", "k", DocStatus.processing, none⟩]⟩ "d" =
      some DocStatus.processing ∧
    some DocStatus.processing ≠ some DocStatus.error := by
  refine ⟨by decide, by decide, by decide⟩

/-- C9 counterexample: after `create` followed by an import whose parse
fails, the base's `document_count` is still 0 while one Document row (in
status `error`) references the base — the invariant fails in a quiescent
state. -/
theorem document_count_cex :
    runOps ⟨[], []⟩ [KbOp.createKB "k", KbOp.importDoc "k" "d" (ImportOutcome.parseFail "bad pdf")] =
      ⟨[("k", 0)], [⟨"d", "k", DocStatus.error, some "bad pdf"⟩]⟩ ∧
    ¬ countInv ⟨[("k", 0)], [⟨"d", "k", DocStatus.error, some "bad pdf"⟩]⟩ := by
  constructor
  · decide
  · intro h
    have := h ("k", 0) (by decide)
    simp at this

theorem find?_none_of_all {α : Type} (p : α → Bool) :
    ∀ l : List α, (∀ x ∈ l, p x = false) → l.find? p = none := by
  intro l
  induction l with
  | nil => intro _; rfl
  | cons x rest ih =>
    intro h
    rw [List.find?_cons, h x (List.mem_cons_self x rest)]
    exact ih (fun y hy => h y (List.mem_cons_of_mem x hy))

theorem find?_append_none {α : Type} (p : α → Bool) (l1 l2 : List α)
    (h : l1.find? p = none) : (l1 ++ l2).find? p = l2.find? p := by
  induction l1 with
  | nil => simp
  | cons x rest ih =>
    rw [List.find?_cons] at h
    rcases hx : p x with _ | _
    · rw [List.cons_append, List.find?_cons, hx]
      rw [hx] at h
      exact ih h
    · rw [hx] at h
      simp at h

theorem setDocStatus_fresh (docs : List DocR) (d : String) (s : DocStatus)
    (msg : Option String) (hfresh : ∀ x ∈ docs, x.id ≠ d) :
    setDocStatus docs d s msg = docs := by
  unfold setDocStatus
  have h2 : docs.map (fun x => if x.id == d then
      { x with status := s, error_message := msg } else x) = docs.map id :=
    List.map_congr_left (fun x hx => by simp [hfresh x hx])
  rw [h2, List.map_id]

theorem find?_docs_fresh (docs : List DocR) (d : String)
    (hfresh : ∀ x ∈ docs, x.id ≠ d) :
    docs.find? (fun x => x.id == d) = none := by
  apply find?_none_of_all
  intro x hx
  simpa using hfresh x hx

/-- C6 (amended). Only a parse failure updates the Document row to
`status = 'error'` (with the message); embedding and vector-store failures
return the error but leave the row in `status = 'processing'` with no error
message; success sets `completed`. -/
theorem import_status_amended (st : IngestDB) (kb d msg : String)
    (hkb : kb ∈ kbIds st) (hfresh : ∀ x ∈ st.docs, x.id ≠ d) :
    docStatusOf (import_document st kb d (ImportOutcome.parseFail msg)).1 d =
      some DocStatus.error ∧
    docErrMsgOf (import_document st kb d (ImportOutcome.parseFail msg)).1 d =
      some (some msg) ∧
    (import_document st kb d (ImportOutcome.parseFail msg)).2 = false ∧
    docStatusOf (import_document st kb d ImportOutcome.embedFail).1 d =
      some DocStatus.processing ∧
    (import_document st kb d ImportOutcome.embedFail).2 = false ∧
    docStatusOf (import_document st kb d ImportOutcome.vecFail).1 d =
      some DocStatus.processing ∧
    docStatusOf (import_document st kb d ImportOutcome.success).1 d =
      some DocStatus.completed := by
  have hsplit : ∀ (s : DocStatus) (m : Option String),
      setDocStatus (st.docs ++ [⟨d, kb, DocStatus.processing, none⟩]) d s m =
        st.docs ++ [⟨d, kb, s, m⟩] := by
    intro s m
    unfold setDocStatus
    rw [List.map_append]
    have h2 : st.docs.map (fun x => if x.id == d then
        { x with status := s, error_message := m } else x) = st.docs.map id :=
      List.map_congr_left (fun x hx => by simp [hfresh x hx])
    rw [h2, List.map_id]
    simp
  have hfind : ∀ (s : DocStatus) (m : Option String),
      (st.docs ++ [(⟨d, kb, s, m⟩ : DocR)]).find? (fun x => x.id == d) =
        some ⟨d, kb, s, m⟩ := by
    intro s m
    rw [find?_append_none _ _ _ (find?_docs_fresh st.docs d hfresh)]
    simp [List.find?_cons]
  refine ⟨?_, ?_, ?_, ?_, ?_, ?_, ?_⟩
  · simp [import_document, if_pos hkb, hsplit, docStatusOf, hfind]
  · simp [import_document, if_pos hkb, hsplit, docErrMsgOf, hfind]
  · simp [import_document, if_pos hkb]
  · simp only [import_document, if_pos hkb, docStatusOf]
    simp [hfind DocStatus.processing none]
  · simp [import_document, if_pos hkb]
  · simp only [import_document, if_pos hkb, docStatusOf]
    simp [hfind DocStatus.processing none]
  · simp [import_document, if_pos hkb, hsplit, docStatusOf, hfind]

/-- Witness for C6: the amended theorem applied at a concrete state. -/
theorem import_status_amended_witness :
    docStatusOf (import_document ⟨[("k", 0)], []⟩ "k" "d"
      (ImportOutcome.parseFail "bad")).1 "d" = some DocStatus.error :=
  (import_status_amended ⟨[("k", 0)], []⟩ "k" "d" "bad" (by decide) (by simp)).1

theorem countP_remove (d : String) : ∀ (docs : List DocR) (dr : DocR),
    (docs.map (fun x => x.id)).Nodup → dr ∈ docs → dr.id = d →
    ∀ p : DocR → Bool,
    docs.countP p =
      (docs.filter (fun x => !(x.id == d))).countP p + (if p dr then 1 else 0) := by
  intro docs
  induction docs with
  | nil => intro dr _ hmem _ _; exact absurd hmem (List.not_mem_nil dr)
  | cons x rest ih =>
    intro dr hnd hmem hid p
    have hnd2 : (x.id ∉ rest.map (fun y => y.id)) ∧ (rest.map (fun y => y.id)).Nodup := by
      simpa using hnd
    by_cases hx : x.id = d
    · have hdr : dr = x := by
        rcases List.mem_cons.mp hmem with h | h
        · exact h
        · exact absurd (show x.id ∈ rest.map (fun y => y.id) from
            hx ▸ hid ▸ List.mem_map_of_mem (fun y => y.id) h) hnd2.1
      have hrest : rest.filter (fun y => !(y.id == d)) = rest := by
        apply List.filter_eq_self.mpr
        intro y hy
        have hyne : y.id ≠ d := by
          intro h
          exact hnd2.1 (hx ▸ h ▸ List.mem_map_of_mem (fun z => z.id) hy)
        simpa using hyne
      have hbx : (!(x.id == d)) = false := by simpa using hx
      have hfc : List.filter (fun y => !(y.id == d)) (x :: rest) = rest := by
        rw [List.filter_cons, hbx]
        simp [hrest]
      rw [List.countP_cons, hfc, hdr]
    · have hdr : dr ∈ rest := by
        rcases List.mem_cons.mp hmem with h | h
        · exact absurd (h ▸ hid) hx
        · exact h
      have hbx : (!(x.id == d)) = true := by simpa using hx
      have hfc : List.filter (fun y => !(y.id == d)) (x :: rest) =
          x :: rest.filter (fun y => !(y.id == d)) := by
        rw [List.filter_cons, hbx]
        simp
      rw [List.countP_cons, hfc, List.countP_cons, ih dr hnd2.2 hdr hid p]
      omega

theorem bumpCount_fst (kbs : List (String × Int)) (k : String) (δ : Int) :
    (bumpCount kbs k δ).map (fun e => e.1) = kbs.map (fun e => e.1) := by
  unfold bumpCount
  rw [List.map_map]
  apply List.map_congr_left
  intro e _
  by_cases h : e.1 = k
  · simp [h]
  · simp [h]

theorem step_preserves (st : IngestDB) (op : KbOp)
    (ha : auxInv st) (hc : countInv st) (hg : goodOpB st op = true) :
    auxInv (applyOp st op) ∧ countInv (applyOp st op) := by
  obtain ⟨hdn, hkn, hcl⟩ := ha
  cases op with
  | createKB k =>
    have hk : k ∉ kbIds st := by simpa [goodOpB, kbIds] using hg
    constructor
    · refine ⟨hdn, ?_, ?_⟩
      · simp only [applyOp, create_knowledge_base, List.map_append]
        rw [List.nodup_append]
        refine ⟨hkn, by simp, ?_⟩
        intro a hamem hbmem
        have hak : a = k := by simpa using hbmem
        exact hk (hak ▸ (show a ∈ kbIds st from hamem))
      · intro d2 hd2
        simp only [applyOp, create_knowledge_base, kbIds, List.map_append, List.mem_append]
        exact Or.inl (hcl d2 hd2)
    · intro kb hkb
      simp only [applyOp, create_knowledge_base, List.mem_append] at hkb
      rcases hkb with h | h
      · exact hc kb h
      · have hkb0 : kb = (k, (0 : Int)) := by simpa using h
        subst hkb0
        have hzero : st.docs.countP (fun d2 => d2.kb_id == k) = 0 := by
          rw [List.countP_eq_zero]
          intro d2 hd2
          have hmem2 : d2.kb_id ∈ kbIds st := hcl d2 hd2
          simp only [beq_iff_eq]
          intro he
          exact hk (he ▸ hmem2)
        simp [applyOp, create_knowledge_base, hzero]
  | importDoc k d oc =>
    have hg2 : oc = ImportOutcome.success ∧ k ∈ kbIds st ∧ ∀ x ∈ st.docs, x.id ≠ d := by
      have h1 := hg
      simp only [goodOpB, Bool.and_eq_true, beq_iff_eq, List.all_eq_true] at h1
      refine ⟨h1.1.1, by simpa [kbIds] using h1.1.2, ?_⟩
      intro x hx
      simpa using h1.2 x hx
    obtain ⟨hoc, hkmem, hfresh⟩ := hg2
    subst hoc
    have hdocs : (import_document st k d ImportOutcome.success).1.docs =
        st.docs ++ [⟨d, k, DocStatus.completed, none⟩] := by
      simp only [import_document, if_pos hkmem]
      unfold setDocStatus
      rw [List.map_append]
      have h2 : st.docs.map (fun x => if x.id == d then
          { x with status := DocStatus.completed, error_message := none } else x) =
          st.docs.map id :=
        List.map_congr_left (fun x hx => by simp [hfresh x hx])
      rw [h2, List.map_id]
      simp
    have hkbs : (import_document st k d ImportOutcome.success).1.kbs =
        bumpCount st.kbs k 1 := by
      simp [import_document, if_pos hkmem]
    constructor
    · refine ⟨?_, ?_, ?_⟩
      · simp only [applyOp, hdocs, List.map_append]
        rw [List.nodup_append]
        refine ⟨hdn, by simp, ?_⟩
        intro a hamem hbmem
        rcases List.mem_map.mp hamem with ⟨x, hx, hxa⟩
        have had : a = d := by simpa using hbmem
        exact hfresh x hx (hxa.symm ▸ had ▸ rfl)
      · have hids2 : ((import_document st k d ImportOutcome.success).1.kbs).map
            (fun e => e.1) = st.kbs.map (fun e => e.1) := by
          rw [hkbs, bumpCount_fst]
        simpa [applyOp, hids2] using hkn
      · intro d2 hd2
        simp only [applyOp, hdocs, List.mem_append] at hd2
        have hids : kbIds (applyOp st (KbOp.importDoc k d ImportOutcome.success)) =
            kbIds st := by
          simp only [applyOp, kbIds, hkbs, bumpCount_fst]
        rw [hids]
        rcases hd2 with h | h
        · exact hcl d2 h
        · have hd2e : d2 = (⟨d, k, DocStatus.completed, none⟩ : DocR) := by simpa using h
          subst hd2e
          exact hkmem
    · intro kb hkb
      simp only [applyOp, hkbs, bumpCount, List.mem_map] at hkb
      rcases hkb with ⟨e, he, heq⟩
      have hce := hc e he
      by_cases hek : e.1 = k
      · have hkbe : kb = (e.1, e.2 + 1) := by
          rw [← heq]
          simp [hek]
        subst hkbe
        simp only [applyOp, hdocs, List.countP_append]
        have hnew : ([(⟨d, k, DocStatus.completed, none⟩ : DocR)].countP
            (fun x => x.kb_id == e.1)) = 1 := by
          simp [List.countP_cons, hek]
        rw [hnew]
        push_cast
        omega
      · have hkbe : kb = e := by
          rw [← heq]
          simp [hek]
        rw [hkbe]
        simp only [applyOp, hdocs, List.countP_append]
        have hnew : ([(⟨d, k, DocStatus.completed, none⟩ : DocR)].countP
            (fun x => x.kb_id == e.1)) = 0 := by
          simp only [List.countP_cons, List.countP_nil]
          have hne2 : ¬ ((k : String) == e.1) = true := by
            simpa using fun h => hek h.symm
          simp [hne2]
        rw [hnew]
        push_cast
        omega
  | deleteDoc d k =>
    have hg2 : ∃ dr ∈ st.docs, dr.id = d ∧ dr.kb_id = k := by
      simp only [goodOpB, List.any_eq_true, Bool.and_eq_true, beq_iff_eq] at hg
      rcases hg with ⟨dr, hdr, h1, h2⟩
      exact ⟨dr, hdr, h1, h2⟩
    obtain ⟨dr, hdrmem, hdrid, hdrkb⟩ := hg2
    constructor
    · refine ⟨?_, ?_, ?_⟩
      · have hsub : List.Sublist
            ((st.docs.filter (fun x => !(x.id == d))).map (fun x => x.id))
            (st.docs.map (fun x => x.id)) :=
          (List.filter_sublist st.docs).map (fun x => x.id)
        exact hdn.sublist hsub
      · have hids2 : ((delete_document st d k).kbs).map (fun e => e.1) =
            st.kbs.map (fun e => e.1) := by
          simp only [delete_document, bumpCount_fst]
        simpa [applyOp, hids2] using hkn
      · intro d2 hd2
        simp only [applyOp, delete_document, List.mem_filter] at hd2
        have hids : kbIds (applyOp st (KbOp.deleteDoc d k)) = kbIds st := by
          simp only [applyOp, delete_document, kbIds, bumpCount_fst]
        rw [hids]
        exact hcl d2 hd2.1
    · intro kb hkb
      simp only [applyOp, delete_document, bumpCount, List.mem_map] at hkb
      rcases hkb with ⟨e, he, heq⟩
      have hce := hc e he
      have hsplit := countP_remove d st.docs dr hdn hdrmem hdrid
        (fun x => x.kb_id == e.1)
      by_cases hek : e.1 = k
      · have hkbe : kb = (e.1, e.2 + (-1)) := by
          rw [← heq]
          simp [hek]
        subst hkbe
        have hp : (dr.kb_id == e.1) = true := by
          simp [hdrkb, hek]
        rw [hp, if_pos rfl] at hsplit
        simp only [applyOp, delete_document]
        omega
      · have hkbe : kb = e := by
          rw [← heq]
          simp [hek]
        rw [hkbe]
        have hp : (dr.kb_id == e.1) = false := by
          simp only [beq_eq_false_iff_ne, ne_eq, hdrkb]
          exact fun h => hek h.symm
        simp only [hp, Bool.false_eq_true, if_false] at hsplit
        simp only [applyOp, delete_document]
        omega

/-- C9 (amended). The `document_count` invariant holds after every sequence
of operations in which each base is created with a fresh id, every import
succeeds (targets an existing base with a fresh document id), and each
delete names an existing document together with its own base.  A failed
document import (counterexample) or a badly targeted delete breaks it:
the import inserts an uncounted row, the delete decrements unconditionally. -/
theorem document_count_amended (ops : List KbOp) : ∀ (st : IngestDB),
    auxInv st → countInv st → goodOpsB st ops = true →
    countInv (runOps st ops) := by
  induction ops with
  | nil => intro st _ hc _; exact hc
  | cons op rest ih =>
    intro st ha hc hg
    have hg2 : goodOpB st op = true ∧ goodOpsB (applyOp st op) rest = true := by
      simpa [goodOpsB] using hg
    have hstep := step_preserves st op ha hc hg2.1
    have : runOps st (op :: rest) = runOps (applyOp st op) rest := by
      simp [runOps]
    rw [this]
    exact ih (applyOp st op) hstep.1 (step_preserves st op ha hc hg2.1).2 hg2.2

/-- Witness for C9: the amended theorem applied to a concrete benign
sequence (create, successful import, matching delete). -/
theorem document_count_amended_witness :
    countInv (runOps ⟨[], []⟩
      [KbOp.createKB "k", KbOp.importDoc "k" "d" ImportOutcome.success,
       KbOp.deleteDoc "d" "k"]) :=
  document_count_amended
    [KbOp.createKB "k", KbOp.importDoc "k" "d" ImportOutcome.success,
     KbOp.deleteDoc "d" "k"]
    ⟨[], []⟩ (by refine ⟨by simp, by simp, ?_⟩; intro d hd; simp at hd)
    (by intro kb hkb; simp at hkb) (by decide)

/-! ## Text splitting (claim C7)

Shallow embedding of `split_text` from
`src-tauri/src/knowledge_base/document.rs`.  Rust strings are `List Char`;
`len()` is the UTF-8 byte length; byte-index slicing (`s[a..]`, `s[i..e]`)
panics when an index is not a character boundary, modelled by
`Option`-valued `dropBytes`/`takeBytes`; `none` anywhere means a panic. -/

/-- Rust `str::len()`: the UTF-8 byte length. -/
def blen (s : List Char) : ℕ := (s.map Char.utf8Size).sum

/-- Byte-index suffix `s[n..]`: `none` when `n` is out of range or not a
character boundary (a Rust panic). -/
def dropBytes : ℕ → List Char → Option (List Char)
  | 0, s => some s
  | _ + 1, [] => none
  | n + 1, c :: s =>
    if c.utf8Size ≤ n + 1 then dropBytes (n + 1 - c.utf8Size) s else none

/-- Byte-count prefix: `none` when out of range or not a boundary. -/
def takeBytes : ℕ → List Char → Option (List Char)
  | 0, _ => some []
  | _ + 1, [] => none
  | n + 1, c :: s =>
    if c.utf8Size ≤ n + 1 then (takeBytes (n + 1 - c.utf8Size) s).map (fun t => c :: t)
    else none

/-- Rust `text.split("\n\n")`: non-overlapping left-to-right matches. -/
def splitNN : List Char → List (List Char)
  | [] => [[]]
  | '\n' :: '\n' :: rest => [] :: splitNN rest
  | c :: rest =>
    match splitNN rest with
    | h :: t => (c :: h) :: t
    | [] => [[c]]

/-- Rust `chunk.split('.')`. -/
def splitDot : List Char → List (List Char)
  | [] => [[]]
  | '.' :: rest => [] :: splitDot rest
  | c :: rest =>
    match splitDot rest with
    | h :: t => (c :: h) :: t
    | [] => [[c]]

def nl2 : List Char := ['\n', '\n']

/-- One iteration of the paragraph-packing loop (stage 1) of `split_text`. -/
def stage1Step (size overlap : ℕ) (st : List (List Char) × List Char)
    (para : List Char) : Option (List (List Char) × List Char) :=
  if blen st.2 + blen para > size ∧ st.2 ≠ [] then
    let ostart := if blen st.2 > overlap then blen st.2 - overlap else 0
    match dropBytes ostart st.2 with
    | none => none
    | some cur2 =>
      some (st.1 ++ [st.2], (if cur2 ≠ [] then cur2 ++ nl2 else cur2) ++ para)
  else
    some (st.1, (if st.2 ≠ [] then st.2 ++ nl2 else st.2) ++ para)

/-- Stage 1: greedy paragraph packing with overlap carry-over. -/
def stage1 (size overlap : ℕ) (ps : List (List Char)) :
    Option (List (List Char) × List Char) :=
  ps.foldlM (stage1Step size overlap) ([], [])

/-- One iteration of the sentence-packing loop (stage 2). -/
def stage2Fold (size : ℕ) (st : List (List Char) × List Char)
    (sentence : List Char) : List (List Char) × List Char :=
  let st1 := if blen st.2 + blen sentence > size ∧ st.2 ≠ [] then (st.1 ++ [st.2], [])
    else st
  (st1.1, st1.2 ++ sentence ++ ['.'])

/-- Stage 2 on one chunk: sentence re-split when longer than `2×size`. -/
def stage2One (size : ℕ) (chunk : List Char) : List (List Char) :=
  if blen chunk > size * 2 then
    let r := (splitDot chunk).foldl (stage2Fold size) ([], [])
    if r.2 ≠ [] then r.1 ++ [r.2] else r.1
  else [chunk]

def stage2 (size : ℕ) (chunks : List (List Char)) : List (List Char) :=
  (chunks.map (stage2One size)).flatten

/-- The hard-split window loop (stage 3): windows of byte width `size`
advancing by `step`, the last window extending to end of text; the `fuel`
argument only bounds the recursion and is chosen large enough. -/
def hardGo (size step : ℕ) (chunk : List Char) : ℕ → ℕ → Option (List (List Char))
  | _, 0 => none
  | i, fuel + 1 =>
    if i < blen chunk then
      match dropBytes i chunk with
      | none => none
      | some t =>
        match takeBytes (min (i + size) (blen chunk) - i) t with
        | none => none
        | some piece =>
          if min (i + size) (blen chunk) = blen chunk then some [piece]
          else (hardGo size step chunk (i + step) fuel).map (fun r => piece :: r)
    else some []

/-- Stage 3 on one chunk.  `chunk_size - chunk_overlap` is a `usize`
subtraction feeding `step_by`: when `overlap ≥ size` Rust panics
(`step_by(0)` or debug underflow), modelled as `none`. -/
def stage3One (size overlap : ℕ) (chunk : List Char) : Option (List (List Char)) :=
  if blen chunk > size * 2 then
    if overlap < size then hardGo size (size - overlap) chunk 0 (blen chunk + 1)
    else none
  else some [chunk]

def stage3 (size overlap : ℕ) (chunks : List (List Char)) :
    Option (List (List Char)) :=
  chunks.foldlM (fun acc ch => (stage3One size overlap ch).map (fun ps => acc ++ ps)) []

/-- Model of `split_text`: the three-stage refinement, `none` on a panic. -/
def split_text (text : List Char) (size overlap : ℕ) : Option (List (List Char)) :=
  match stage1 size overlap (splitNN text) with
  | none => none
  | some st =>
    stage3 size overlap (stage2 size (if st.2 ≠ [] then st.1 ++ [st.2] else st.1))

/-- C7 counterexample.  Two failures of the claim as stated: (1) on the
non-ASCII input `"aé\n\nxxxx"` with `chunk_size = 3 > chunk_overlap = 1`
the overlap slice `current_chunk[2..]` falls inside the two-byte `é` and
`split_text` panics (returns `none`); (2) on `"\n\na"` (overlap 2 < size
10) it returns `["a"]`, which does not cover the input — the leading
double newline is dropped. -/
theorem split_text_cex :
    split_text (strOf "aé\n\nxxxx") 3 1 = none ∧
    split_text (strOf "\n\na") 10 2 = some [strOf "a"] ∧
    ¬ (strOf "\n\na").Sublist (List.flatten [strOf "a"]) := by
  refine ⟨by decide, by decide, ?_⟩
  intro h
  have := h.length_le
  simp [strOf] at this

def allAscii (s : List Char) : Prop := ∀ c ∈ s, c.utf8Size = 1

theorem blen_ascii : ∀ s : List Char, allAscii s → blen s = s.length := by
  intro s
  induction s with
  | nil => intro _; rfl
  | cons c rest ih =>
    intro h
    have hc : c.utf8Size = 1 := h c (List.mem_cons_self c rest)
    have hr : allAscii rest := fun x hx => h x (List.mem_cons_of_mem c hx)
    simp only [blen, List.map_cons, List.sum_cons, hc] at *
    rw [ih hr, List.length_cons]
    omega

theorem dropBytes_ascii : ∀ (s : List Char) (n : ℕ), allAscii s → n ≤ s.length →
    dropBytes n s = some (s.drop n) := by
  intro s
  induction s with
  | nil =>
    intro n _ hn
    have hn0 : n = 0 := by simpa using hn
    subst hn0
    rfl
  | cons c rest ih =>
    intro n h hn
    cases n with
    | zero => rfl
    | succ m =>
      have hc : c.utf8Size = 1 := h c (List.mem_cons_self c rest)
      have hr : allAscii rest := fun x hx => h x (List.mem_cons_of_mem c hx)
      simp only [dropBytes, hc]
      rw [if_pos (by omega)]
      have : m + 1 - 1 = m := by omega
      rw [this, ih m hr (by simpa using hn)]
      simp

theorem takeBytes_ascii : ∀ (s : List Char) (n : ℕ), allAscii s → n ≤ s.length →
    takeBytes n s = some (s.take n) := by
  intro s
  induction s with
  | nil =>
    intro n _ hn
    have hn0 : n = 0 := by simpa using hn
    subst hn0
    rfl
  | cons c rest ih =>
    intro n h hn
    cases n with
    | zero => rfl
    | succ m =>
      have hc : c.utf8Size = 1 := h c (List.mem_cons_self c rest)
      have hr : allAscii rest := fun x hx => h x (List.mem_cons_of_mem c hx)
      simp only [takeBytes, hc]
      rw [if_pos (by omega)]
      have : m + 1 - 1 = m := by omega
      rw [this, ih m hr (by simpa using hn)]
      simp

theorem splitNN_nil : splitNN [] = [[]] := rfl

theorem splitNN_nlnl (rest : List Char) :
    splitNN ('\n' :: '\n' :: rest) = [] :: splitNN rest := rfl

theorem splitNN_cons (c : Char) (rest : List Char)
    (h : ∀ r2 : List Char, c = '\n' → rest = '\n' :: r2 → False) :
    splitNN (c :: rest) = (match splitNN rest with
      | hd :: tl => (c :: hd) :: tl
      | [] => [[c]]) := by
  rw [splitNN.eq_def]
  split
  · rename_i heq2
    simp at heq2
  · rename_i r2 heq2
    injection heq2 with h1 h2
    exact (h r2 h1 h2).elim
  · rename_i x c2 r2 hguard heq2
    injection heq2 with h1 h2
    subst h1
    subst h2
    rfl

theorem splitNN_ne_nil : ∀ s : List Char, splitNN s ≠ [] := by
  intro s
  induction s using splitNN.induct with
  | case1 => simp [splitNN_nil]
  | case2 rest ih => simp [splitNN_nlnl]
  | case3 c rest h hd tl heq ihp =>
    rw [splitNN_cons c rest h, heq]
    simp
  | case4 c rest h heq ihp => exact (ihp heq).elim

/-- Inverse of the double-newline split: head paragraph, then each further
paragraph preceded by the separator. -/
def withSeps (ps : List (List Char)) : List Char :=
  (ps.map (fun q => nl2 ++ q)).flatten

def joinPs : List (List Char) → List Char
  | [] => []
  | p :: ps => p ++ withSeps ps

theorem withSeps_of_ne_nil (ps : List (List Char)) (h : ps ≠ []) :
    withSeps ps = nl2 ++ joinPs ps := by
  cases ps with
  | nil => exact (h rfl).elim
  | cons q qs => simp [withSeps, joinPs]

theorem splitNN_join : ∀ s : List Char, joinPs (splitNN s) = s := by
  intro s
  induction s using splitNN.induct with
  | case1 => rfl
  | case2 rest ih =>
    rw [splitNN_nlnl, joinPs, withSeps_of_ne_nil _ (splitNN_ne_nil rest), ih]
    rfl
  | case3 c rest h hd tl heq ihp =>
    rw [splitNN_cons c rest h, heq]
    rw [heq, joinPs] at ihp
    simp only [joinPs, List.cons_append]
    rw [ihp]
  | case4 c rest h heq ihp => exact absurd heq (splitNN_ne_nil rest)

theorem splitNN_ascii : ∀ s : List Char, allAscii s → ∀ p ∈ splitNN s, allAscii p := by
  intro s
  induction s using splitNN.induct with
  | case1 =>
    intro _ p hp
    simp only [splitNN_nil, List.mem_singleton] at hp
    subst hp
    intro c hc
    simp at hc
  | case2 rest ih =>
    intro ha p hp
    have har : allAscii rest := fun c hc => ha c (by simp [hc])
    rw [splitNN_nlnl] at hp
    rcases List.mem_cons.mp hp with h1 | h1
    · subst h1; intro c hc; simp at hc
    · exact ih har p h1
  | case3 c rest h hd tl heq ihp =>
    intro ha p hp
    have hac : c.utf8Size = 1 := ha c (List.mem_cons_self c rest)
    have har : allAscii rest := fun x hx => ha x (List.mem_cons_of_mem c hx)
    rw [splitNN_cons c rest h, heq] at hp
    rcases List.mem_cons.mp hp with h1 | h1
    · subst h1
      intro x hx
      rcases List.mem_cons.mp hx with h2 | h2
      · exact h2 ▸ hac
      · exact ihp har hd (heq ▸ List.mem_cons_self hd tl) x h2
    · exact ihp har p (heq ▸ List.mem_cons_of_mem hd h1)
  | case4 c rest h heq ihp => exact absurd heq (splitNN_ne_nil rest)

theorem splitDot_nil : splitDot [] = [[]] := rfl

theorem splitDot_dot (rest : List Char) : splitDot ('.' :: rest) = [] :: splitDot rest := rfl

theorem splitDot_cons (c : Char) (rest : List Char) (h : ¬ c = '.') :
    splitDot (c :: rest) = (match splitDot rest with
      | hd :: tl => (c :: hd) :: tl
      | [] => [[c]]) := by
  rw [splitDot.eq_def]
  split
  · rename_i heq2
    simp at heq2
  · rename_i r2 heq2
    injection heq2 with h1 h2
    exact (h h1).elim
  · rename_i x c2 r2 hguard heq2
    injection heq2 with h1 h2
    subst h1
    subst h2
    rfl

theorem splitDot_ne_nil : ∀ s : List Char, splitDot s ≠ [] := by
  intro s
  induction s using splitDot.induct with
  | case1 => simp [splitDot_nil]
  | case2 rest ih => simp [splitDot_dot]
  | case3 c rest h hd tl heq ihp =>
    rw [splitDot_cons c rest h, heq]
    simp
  | case4 c rest h heq ihp => exact (ihp heq).elim

/-- Concatenation of stage 2's emitted pieces: every sentence followed by
the re-appended dot. -/
def dotted (ss : List (List Char)) : List Char := (ss.map (fun s => s ++ ['.'])).flatten

theorem splitDot_dotted : ∀ s : List Char, dotted (splitDot s) = s ++ ['.'] := by
  intro s
  induction s using splitDot.induct with
  | case1 => rfl
  | case2 rest ih =>
    rw [splitDot_dot]
    simp only [dotted, List.map_cons, List.flatten_cons] at *
    rw [ih]
    rfl
  | case3 c rest h hd tl heq ihp =>
    rw [splitDot_cons c rest h, heq]
    rw [heq] at ihp
    simp only [dotted, List.map_cons, List.flatten_cons, List.cons_append,
      List.append_assoc] at *
    exact congrArg (List.cons c) ihp
  | case4 c rest h heq ihp => exact absurd heq (splitDot_ne_nil rest)

theorem splitDot_ascii : ∀ s : List Char, allAscii s → ∀ p ∈ splitDot s, allAscii p := by
  intro s
  induction s using splitDot.induct with
  | case1 =>
    intro _ p hp
    simp only [splitDot_nil, List.mem_singleton] at hp
    subst hp
    intro c hc
    simp at hc
  | case2 rest ih =>
    intro ha p hp
    have har : allAscii rest := fun c hc => ha c (by simp [hc])
    rw [splitDot_dot] at hp
    rcases List.mem_cons.mp hp with h1 | h1
    · subst h1; intro c hc; simp at hc
    · exact ih har p h1
  | case3 c rest h hd tl heq ihp =>
    intro ha p hp
    have hac : c.utf8Size = 1 := ha c (List.mem_cons_self c rest)
    have har : allAscii rest := fun x hx => ha x (List.mem_cons_of_mem c hx)
    rw [splitDot_cons c rest h, heq] at hp
    rcases List.mem_cons.mp hp with h1 | h1
    · subst h1
      intro x hx
      rcases List.mem_cons.mp hx with h2 | h2
      · exact h2 ▸ hac
      · exact ihp har hd (heq ▸ List.mem_cons_self hd tl) x h2
    · exact ihp har p (heq ▸ List.mem_cons_of_mem hd h1)
  | case4 c rest h heq ihp => exact absurd heq (splitDot_ne_nil rest)

theorem allAscii_append {a b : List Char} (ha : allAscii a) (hb : allAscii b) :
    allAscii (a ++ b) := by
  intro c hc
  rcases List.mem_append.mp hc with h | h
  · exact ha c h
  · exact hb c h

theorem allAscii_nl2 : allAscii nl2 := by
  intro c hc
  rcases List.mem_cons.mp hc with h | h
  · subst h; decide
  · have : c = '\n' := by simpa [nl2] using h
    subst this; decide

theorem allAscii_dot : allAscii ['.'] := by
  intro c hc
  have : c = '.' := by simpa using hc
  subst this; decide

theorem allAscii_drop {s : List Char} (n : ℕ) (h : allAscii s) : allAscii (s.drop n) :=
  fun c hc => h c (List.mem_of_mem_drop hc)

theorem allAscii_take {s : List Char} (n : ℕ) (h : allAscii s) : allAscii (s.take n) :=
  fun c hc => h c (List.mem_of_mem_take hc)

theorem allAscii_nil : allAscii [] := fun c hc => absurd hc (List.not_mem_nil c)

theorem stage1_safe (size overlap : ℕ) :
    ∀ (ps : List (List Char)) (chunks : List (List Char)) (cur : List Char),
    (∀ p ∈ ps, allAscii p) → allAscii cur →
    (∀ ch ∈ chunks, ch ≠ [] ∧ allAscii ch) →
    ∃ st2, ps.foldlM (stage1Step size overlap) (chunks, cur) = some st2 ∧
      (∀ ch ∈ st2.1, ch ≠ [] ∧ allAscii ch) ∧ allAscii st2.2 := by
  intro ps
  induction ps with
  | nil =>
    intro chunks cur _ hcur hch
    exact ⟨(chunks, cur), rfl, hch, hcur⟩
  | cons p ps ih =>
    intro chunks cur hps hcur hch
    have hp : allAscii p := hps p (List.mem_cons_self p ps)
    have hps2 : ∀ q ∈ ps, allAscii q := fun q hq => hps q (List.mem_cons_of_mem p hq)
    rw [List.foldlM_cons]
    by_cases hguard : blen cur + blen p > size ∧ cur ≠ []
    · have hlen : blen cur = cur.length := blen_ascii cur hcur
      have hostart : (if blen cur > overlap then blen cur - overlap else 0) ≤ cur.length := by
        by_cases h2 : blen cur > overlap
        · simp only [if_pos h2]; omega
        · simp only [if_neg h2]; omega
      have hdrop := dropBytes_ascii cur _ hcur hostart
      have hcur2 : allAscii (cur.drop (if blen cur > overlap then blen cur - overlap else 0)) :=
        allAscii_drop _ hcur
      have hstep : stage1Step size overlap (chunks, cur) p =
          some (chunks ++ [cur],
            (if cur.drop (if blen cur > overlap then blen cur - overlap else 0) ≠ [] then
              cur.drop (if blen cur > overlap then blen cur - overlap else 0) ++ nl2
            else cur.drop (if blen cur > overlap then blen cur - overlap else 0)) ++ p) := by
        simp only [stage1Step, if_pos hguard, hdrop]
      rw [hstep]
      simp only [Option.bind_eq_bind, Option.some_bind]
      apply ih
      · exact hps2
      · by_cases h3 : cur.drop (if blen cur > overlap then blen cur - overlap else 0) ≠ []
        · simp only [if_pos h3]
          exact allAscii_append (allAscii_append hcur2 allAscii_nl2) hp
        · simp only [if_neg h3]
          exact allAscii_append hcur2 hp
      · intro ch hc
        rcases List.mem_append.mp hc with h | h
        · exact hch ch h
        · have : ch = cur := by simpa using h
          exact ⟨this ▸ hguard.2, this ▸ hcur⟩
    · have hstep : stage1Step size overlap (chunks, cur) p =
          some (chunks, (if cur ≠ [] then cur ++ nl2 else cur) ++ p) := by
        simp only [stage1Step, if_neg hguard]
      rw [hstep]
      simp only [Option.bind_eq_bind, Option.some_bind]
      apply ih
      · exact hps2
      · by_cases h3 : cur ≠ []
        · simp only [if_pos h3]
          exact allAscii_append (allAscii_append hcur allAscii_nl2) hp
        · simp only [if_neg h3]
          exact allAscii_append hcur hp
      · exact hch

theorem stage1_cover (size overlap : ℕ) (hov : 1 ≤ overlap) :
    ∀ (ps : List (List Char)) (chunks : List (List Char)) (cur : List Char)
      (T : List Char),
    (∀ p ∈ ps, allAscii p) → allAscii cur → cur ≠ [] →
    T.Sublist (chunks.flatten ++ cur) →
    ∀ st2, ps.foldlM (stage1Step size overlap) (chunks, cur) = some st2 →
    st2.2 ≠ [] ∧ (T ++ withSeps ps).Sublist (st2.1.flatten ++ st2.2) := by
  intro ps
  induction ps with
  | nil =>
    intro chunks cur T _ _ hne hsub st2 hrun
    have hst : (chunks, cur) = st2 := by simpa using hrun
    subst hst
    simpa [withSeps] using ⟨hne, hsub⟩
  | cons p ps ih =>
    intro chunks cur T hps hcur hne hsub st2 hrun
    have hp : allAscii p := hps p (List.mem_cons_self p ps)
    have hps2 : ∀ q ∈ ps, allAscii q := fun q hq => hps q (List.mem_cons_of_mem p hq)
    have hws : withSeps (p :: ps) = (nl2 ++ p) ++ withSeps ps := by
      simp [withSeps]
    rw [List.foldlM_cons] at hrun
    by_cases hguard : blen cur + blen p > size ∧ cur ≠ []
    · have hlen : blen cur = cur.length := blen_ascii cur hcur
      have hostart : (if blen cur > overlap then blen cur - overlap else 0) ≤ cur.length := by
        by_cases h2 : blen cur > overlap
        · simp only [if_pos h2]; omega
        · simp only [if_neg h2]; omega
      have hdrop := dropBytes_ascii cur _ hcur hostart
      have hlpos : 0 < cur.length := List.length_pos.mpr hne
      have hc2ne : cur.drop (if blen cur > overlap then blen cur - overlap else 0) ≠ [] := by
        apply List.length_pos.mp
        rw [List.length_drop]
        by_cases h2 : blen cur > overlap
        · simp only [if_pos h2]; omega
        · simp only [if_neg h2]; omega
      have hstep : stage1Step size overlap (chunks, cur) p =
          some (chunks ++ [cur],
            (cur.drop (if blen cur > overlap then blen cur - overlap else 0) ++ nl2) ++ p) := by
        simp only [stage1Step, if_pos hguard, hdrop, if_pos hc2ne]
      rw [hstep] at hrun
      simp only [Option.bind_eq_bind, Option.some_bind] at hrun
      have hsub2 : (T ++ (nl2 ++ p)).Sublist
          ((chunks ++ [cur]).flatten ++
            ((cur.drop (if blen cur > overlap then blen cur - overlap else 0) ++ nl2) ++ p)) := by
        have h1 : (T ++ (nl2 ++ p)).Sublist ((chunks.flatten ++ cur) ++ (nl2 ++ p)) :=
          hsub.append (List.Sublist.refl _)
        have h2 : ((chunks.flatten ++ cur) ++ (nl2 ++ p)).Sublist
            ((chunks.flatten ++ cur) ++
              ((cur.drop (if blen cur > overlap then blen cur - overlap else 0)) ++ (nl2 ++ p))) :=
          List.Sublist.append_left
            (List.sublist_append_right _ _) _
        refine (h1.trans h2).trans ?_
        simp [List.flatten_append, List.append_assoc]
      have hres := ih (chunks ++ [cur]) _ (T ++ (nl2 ++ p)) hps2
        (allAscii_append (allAscii_append (allAscii_drop _ hcur) allAscii_nl2) hp)
        (by simp [hc2ne]) hsub2 st2 hrun
      refine ⟨hres.1, ?_⟩
      have := hres.2
      rw [hws]
      simpa [List.append_assoc] using this
    · have hstep : stage1Step size overlap (chunks, cur) p =
          some (chunks, (cur ++ nl2) ++ p) := by
        simp only [stage1Step, if_neg hguard, if_pos hne]
      rw [hstep] at hrun
      simp only [Option.bind_eq_bind, Option.some_bind] at hrun
      have hsub2 : (T ++ (nl2 ++ p)).Sublist (chunks.flatten ++ ((cur ++ nl2) ++ p)) := by
        have h1 : (T ++ (nl2 ++ p)).Sublist ((chunks.flatten ++ cur) ++ (nl2 ++ p)) :=
          hsub.append (List.Sublist.refl _)
        refine h1.trans ?_
        simp [List.append_assoc]
      have hres := ih chunks _ (T ++ (nl2 ++ p)) hps2
        (allAscii_append (allAscii_append hcur allAscii_nl2) hp)
        (by simp [hne]) hsub2 st2 hrun
      refine ⟨hres.1, ?_⟩
      have := hres.2
      rw [hws]
      simpa [List.append_assoc] using this

theorem stage2_go (size : ℕ) :
    ∀ (ss : List (List Char)) (finals : List (List Char)) (scur : List Char),
    ((ss.foldl (stage2Fold size) (finals, scur)).1.flatten ++
      (ss.foldl (stage2Fold size) (finals, scur)).2 =
      finals.flatten ++ scur ++ dotted ss) ∧
    ((∀ f ∈ finals, f ≠ []) →
      ∀ f ∈ (ss.foldl (stage2Fold size) (finals, scur)).1, f ≠ []) ∧
    ((∀ f ∈ finals, allAscii f) → allAscii scur → (∀ s ∈ ss, allAscii s) →
      (∀ f ∈ (ss.foldl (stage2Fold size) (finals, scur)).1, allAscii f) ∧
      allAscii (ss.foldl (stage2Fold size) (finals, scur)).2) := by
  intro ss
  induction ss with
  | nil =>
    intro finals scur
    refine ⟨by simp [dotted], fun h => h, fun h1 h2 _ => ⟨h1, h2⟩⟩
  | cons s ss ih =>
    intro finals scur
    have hfold : (s :: ss).foldl (stage2Fold size) (finals, scur) =
        ss.foldl (stage2Fold size) (stage2Fold size (finals, scur) s) := by
      simp [List.foldl_cons]
    by_cases hguard : blen scur + blen s > size ∧ scur ≠ []
    · have hstep : stage2Fold size (finals, scur) s = (finals ++ [scur], s ++ ['.']) := by
        simp [stage2Fold, if_pos hguard]
      rw [hfold, hstep]
      have hih := ih (finals ++ [scur]) (s ++ ['.'])
      refine ⟨?_, ?_, ?_⟩
      · rw [hih.1]
        simp [dotted, List.append_assoc]
      · intro hf
        apply hih.2.1
        intro f hfm
        rcases List.mem_append.mp hfm with h | h
        · exact hf f h
        · have : f = scur := by simpa using h
          exact this ▸ hguard.2
      · intro h1 h2 h3
        apply hih.2.2
        · intro f hfm
          rcases List.mem_append.mp hfm with h | h
          · exact h1 f h
          · have : f = scur := by simpa using h
            exact this ▸ h2
        · exact allAscii_append (h3 s (List.mem_cons_self s ss)) allAscii_dot
        · exact fun q hq => h3 q (List.mem_cons_of_mem s hq)
    · have hstep : stage2Fold size (finals, scur) s = (finals, scur ++ s ++ ['.']) := by
        simp [stage2Fold, if_neg hguard]
      rw [hfold, hstep]
      have hih := ih finals (scur ++ s ++ ['.'])
      refine ⟨?_, ?_, ?_⟩
      · rw [hih.1]
        simp [dotted, List.append_assoc]
      · exact hih.2.1
      · intro h1 h2 h3
        apply hih.2.2
        · exact h1
        · exact allAscii_append (allAscii_append h2 (h3 s (List.mem_cons_self s ss)))
            allAscii_dot
        · exact fun q hq => h3 q (List.mem_cons_of_mem s hq)

theorem stage2One_props (size : ℕ) (chunk : List Char) (hne : chunk ≠ [])
    (ha : allAscii chunk) :
    (∀ p ∈ stage2One size chunk, p ≠ [] ∧ allAscii p) ∧
    chunk.Sublist (stage2One size chunk).flatten := by
  by_cases hbig : blen chunk > size * 2
  · have hgo := stage2_go size (splitDot chunk) [] []
    have hflat : (stage2One size chunk).flatten =
        ((splitDot chunk).foldl (stage2Fold size) ([], [])).1.flatten ++
          ((splitDot chunk).foldl (stage2Fold size) ([], [])).2 := by
      simp only [stage2One, if_pos hbig]
      by_cases h2 : ((splitDot chunk).foldl (stage2Fold size) ([], [])).2 ≠ []
      · simp [h2]
      · rw [if_neg h2]
        simp only [not_ne_iff] at h2
        simp [h2]
    have hdj : (stage2One size chunk).flatten = chunk ++ ['.'] := by
      rw [hflat, hgo.1]
      simp [splitDot_dotted chunk]
    constructor
    · intro p hp
      have hmem : p ∈ (if ((splitDot chunk).foldl (stage2Fold size) ([], [])).2 ≠ [] then
          ((splitDot chunk).foldl (stage2Fold size) ([], [])).1 ++
            [((splitDot chunk).foldl (stage2Fold size) ([], [])).2]
        else ((splitDot chunk).foldl (stage2Fold size) ([], [])).1) := by
        simpa [stage2One, if_pos hbig] using hp
      have hasc := hgo.2.2 (by simp) allAscii_nil (splitDot_ascii chunk ha)
      by_cases h2 : ((splitDot chunk).foldl (stage2Fold size) ([], [])).2 ≠ []
      · rw [if_pos h2] at hmem
        rcases List.mem_append.mp hmem with h | h
        · exact ⟨hgo.2.1 (by simp) p h, hasc.1 p h⟩
        · have hps : p = ((splitDot chunk).foldl (stage2Fold size) ([], [])).2 := by
            simpa using h
          exact ⟨hps ▸ h2, hps ▸ hasc.2⟩
      · rw [if_neg h2] at hmem
        exact ⟨hgo.2.1 (by simp) p hmem, hasc.1 p hmem⟩
    · rw [hdj]
      exact List.sublist_append_left chunk ['.']
  · constructor
    · intro p hp
      have : p = chunk := by simpa [stage2One, if_neg hbig] using hp
      exact ⟨this ▸ hne, this ▸ ha⟩
    · simp only [stage2One, if_neg hbig]
      simp

theorem stage2_props (size : ℕ) : ∀ chunks : List (List Char),
    (∀ ch ∈ chunks, ch ≠ [] ∧ allAscii ch) →
    (∀ p ∈ stage2 size chunks, p ≠ [] ∧ allAscii p) ∧
    chunks.flatten.Sublist (stage2 size chunks).flatten := by
  intro chunks
  induction chunks with
  | nil => intro _; simp [stage2]
  | cons ch rest ih =>
    intro h
    have hch := h ch (List.mem_cons_self ch rest)
    have hrest := ih (fun c hc => h c (List.mem_cons_of_mem ch hc))
    have hone := stage2One_props size ch hch.1 hch.2
    have hsplit : stage2 size (ch :: rest) = stage2One size ch ++ stage2 size rest := by
      simp [stage2]
    constructor
    · intro p hp
      rw [hsplit] at hp
      rcases List.mem_append.mp hp with hm | hm
      · exact hone.1 p hm
      · exact hrest.1 p hm
    · rw [hsplit, List.flatten_append, List.flatten_cons]
      exact hone.2.append hrest.2

theorem hardGo_ok (size step : ℕ) (chunk : List Char) (ha : allAscii chunk)
    (hstep1 : 1 ≤ step) (hstep2 : step ≤ size) (hsize : 1 ≤ size) :
    ∀ (fuel i : ℕ), i < chunk.length → chunk.length - i ≤ fuel →
    ∃ pieces, hardGo size step chunk i fuel = some pieces ∧
      (∀ p ∈ pieces, p ≠ [] ∧ allAscii p) ∧
      (chunk.drop i).Sublist pieces.flatten := by
  have hblen : blen chunk = chunk.length := blen_ascii chunk ha
  intro fuel
  induction fuel with
  | zero =>
    intro i hi hfuel
    omega
  | succ fuel ih =>
    intro i hi hfuel
    have hdrop := dropBytes_ascii chunk i ha (le_of_lt hi)
    have hdascii : allAscii (chunk.drop i) := allAscii_drop i ha
    have hdlen : (chunk.drop i).length = chunk.length - i := List.length_drop i chunk
    have htake := takeBytes_ascii (chunk.drop i) (min (i + size) (blen chunk) - i)
      hdascii (by rw [hdlen]; omega)
    have hpne : (chunk.drop i).take (min (i + size) (blen chunk) - i) ≠ [] := by
      apply List.length_pos.mp
      rw [List.length_take, hdlen]
      have : 1 ≤ min (i + size) (blen chunk) - i := by omega
      omega
    have hpascii : allAscii ((chunk.drop i).take (min (i + size) (blen chunk) - i)) :=
      allAscii_take _ hdascii
    by_cases hend : min (i + size) (blen chunk) = blen chunk
    · have hrun : hardGo size step chunk i (fuel + 1) =
          some [(chunk.drop i).take (min (i + size) (blen chunk) - i)] := by
        simp only [hardGo, if_pos (by omega : i < blen chunk), hdrop, htake, if_pos hend]
      refine ⟨_, hrun, ?_, ?_⟩
      · intro p hp
        have : p = (chunk.drop i).take (min (i + size) (blen chunk) - i) := by
          simpa using hp
        exact ⟨this ▸ hpne, this ▸ hpascii⟩
      · have htk : (chunk.drop i).take (min (i + size) (blen chunk) - i) = chunk.drop i := by
          apply List.take_of_length_le
          rw [hdlen]
          omega
        simp [htk]
    · have hlt : i + size < chunk.length := by omega
      have hmin : min (i + size) (blen chunk) = i + size := by omega
      have hih := ih (i + step) (by omega) (by omega)
      rcases hih with ⟨rest, hrest, hgood, hcov⟩
      have hrun : hardGo size step chunk i (fuel + 1) =
          some ((chunk.drop i).take (min (i + size) (blen chunk) - i) :: rest) := by
        simp only [hardGo, if_pos (by omega : i < blen chunk), hdrop, htake, if_neg hend,
          hrest]
        rfl
      refine ⟨_, hrun, ?_, ?_⟩
      · intro p hp
        rcases List.mem_cons.mp hp with h | h
        · exact ⟨h ▸ hpne, h ▸ hpascii⟩
        · exact hgood p h
      · have hsplitd : chunk.drop i =
            (chunk.drop i).take (min (i + size) (blen chunk) - i) ++
              chunk.drop (i + size) := by
          conv_lhs => rw [← List.take_append_drop (min (i + size) (blen chunk) - i)
            (chunk.drop i)]
          congr 1
          rw [List.drop_drop]
          congr 1
          omega
        have h1 : (chunk.drop (i + size)).Sublist (chunk.drop (i + step)) := by
          have hdd : chunk.drop (i + size) = (chunk.drop (i + step)).drop (size - step) := by
            rw [List.drop_drop]
            congr 1
            omega
          rw [hdd]
          exact List.drop_sublist _ _
        rw [List.flatten_cons]
        conv_lhs => rw [hsplitd]
        exact (h1.trans hcov).append_left _

theorem stage3One_props (size overlap : ℕ) (hov : overlap < size) (chunk : List Char)
    (hne : chunk ≠ []) (ha : allAscii chunk) :
    ∃ pieces, stage3One size overlap chunk = some pieces ∧
      (∀ p ∈ pieces, p ≠ [] ∧ allAscii p) ∧ chunk.Sublist pieces.flatten := by
  have hblen : blen chunk = chunk.length := blen_ascii chunk ha
  by_cases hbig : blen chunk > size * 2
  · have hlpos : 0 < chunk.length := List.length_pos.mpr hne
    have hgo := hardGo_ok size (size - overlap) chunk ha (by omega) (by omega) (by omega)
      (blen chunk + 1) 0 (by omega) (by omega)
    rcases hgo with ⟨pieces, hrun, hgood, hcov⟩
    refine ⟨pieces, ?_, hgood, by simpa using hcov⟩
    simp only [stage3One, if_pos hbig, if_pos hov]
    exact hrun
  · refine ⟨[chunk], ?_, ?_, by simp⟩
    · simp [stage3One, if_neg hbig]
    · intro p hp
      have : p = chunk := by simpa using hp
      exact ⟨this ▸ hne, this ▸ ha⟩

theorem stage3_go (size overlap : ℕ) (hov : overlap < size) :
    ∀ (chunks : List (List Char)) (acc : List (List Char)),
    (∀ ch ∈ chunks, ch ≠ [] ∧ allAscii ch) →
    ∃ tail, chunks.foldlM
        (fun acc2 ch => (stage3One size overlap ch).map (fun ps => acc2 ++ ps)) acc =
        some (acc ++ tail) ∧
      (∀ p ∈ tail, p ≠ [] ∧ allAscii p) ∧ chunks.flatten.Sublist tail.flatten := by
  intro chunks
  induction chunks with
  | nil =>
    intro acc _
    exact ⟨[], by simp, by simp, by simp⟩
  | cons ch rest ih =>
    intro acc h
    have hch := h ch (List.mem_cons_self ch rest)
    rcases stage3One_props size overlap hov ch hch.1 hch.2 with ⟨pieces, hone, hgood, hcov⟩
    rcases ih (acc ++ pieces) (fun c hc => h c (List.mem_cons_of_mem ch hc)) with
      ⟨tail, hrun, hgood2, hcov2⟩
    refine ⟨pieces ++ tail, ?_, ?_, ?_⟩
    · rw [List.foldlM_cons, hone]
      have hmap : (Option.map (fun ps => acc ++ ps) (some pieces)) = some (acc ++ pieces) := rfl
      rw [hmap]
      simp only [Option.bind_eq_bind, Option.some_bind]
      rw [hrun, List.append_assoc]
    · intro p hp
      rcases List.mem_append.mp hp with hm | hm
      · exact hgood p hm
      · exact hgood2 p hm
    · rw [List.flatten_cons, List.flatten_append]
      exact hcov.append hcov2

/-- C7 (amended). For ASCII input (every character one UTF-8 byte) and
`chunk_overlap < chunk_size`, `split_text` returns normally an ordered list
of non-empty chunks; when moreover `chunk_overlap ≥ 1` and the input does
not begin with an empty paragraph, the input text is a subsequence of the
concatenated chunks (it is covered up to the duplicated overlaps and
re-inserted separators).  Empty input yields the empty list.  On non-ASCII
input `split_text` can panic, and with a zero overlap or a leading empty
paragraph input characters can be dropped (counterexample). -/
theorem split_text_amended :
    (∀ (size overlap : ℕ) (text : List Char), overlap < size → allAscii text →
      ∃ cs, split_text text size overlap = some cs ∧
        (∀ ch ∈ cs, ch ≠ []) ∧
        (1 ≤ overlap → (splitNN text).head? ≠ some [] → text.Sublist cs.flatten)) ∧
    (∀ size overlap : ℕ, split_text [] size overlap = some []) := by
  constructor
  · intro size overlap text hov hascii
    obtain ⟨p1, ps, hsp⟩ : ∃ p1 ps, splitNN text = p1 :: ps := by
      cases h : splitNN text with
      | nil => exact absurd h (splitNN_ne_nil text)
      | cons a b => exact ⟨a, b, rfl⟩
    have hpsascii : ∀ p ∈ splitNN text, allAscii p := splitNN_ascii text hascii
    rcases stage1_safe size overlap (splitNN text) [] [] hpsascii allAscii_nil
      (by simp) with ⟨st, hst, hchunks, hcur⟩
    obtain ⟨cs1, cur1⟩ := st
    have hchunks1good : ∀ ch ∈ (if cur1 ≠ [] then cs1 ++ [cur1] else cs1),
        ch ≠ [] ∧ allAscii ch := by
      by_cases h2 : cur1 ≠ []
      · rw [if_pos h2]
        intro ch hc
        rcases List.mem_append.mp hc with hm | hm
        · exact hchunks ch hm
        · have : ch = cur1 := by simpa using hm
          exact ⟨this ▸ h2, this ▸ hcur⟩
      · rw [if_neg h2]
        exact hchunks
    have h2p := stage2_props size (if cur1 ≠ [] then cs1 ++ [cur1] else cs1) hchunks1good
    rcases stage3_go size overlap hov
      (stage2 size (if cur1 ≠ [] then cs1 ++ [cur1] else cs1)) [] h2p.1 with
      ⟨tail, h3run, h3good, h3cov⟩
    have hspl : split_text text size overlap =
        stage3 size overlap (stage2 size (if cur1 ≠ [] then cs1 ++ [cur1] else cs1)) := by
      unfold split_text stage1
      rw [hst]
    refine ⟨tail, ?_, fun ch hc => (h3good ch hc).1, ?_⟩
    · rw [hspl]
      unfold stage3
      simpa using h3run
    · intro hov1 hhead
      have hp1ne : p1 ≠ [] := by
        rw [hsp] at hhead
        simpa using hhead
    
      have hstep0 : stage1Step size overlap ([], []) p1 = some ([], p1) := by
        simp [stage1Step]
      have hrun1 : (p1 :: ps).foldlM (stage1Step size overlap) ([], []) =
          ps.foldlM (stage1Step size overlap) ([], p1) := by
        rw [List.foldlM_cons, hstep0]
        simp
      have hst2 : ps.foldlM (stage1Step size overlap) ([], p1) = some (cs1, cur1) := by
        rw [← hrun1]
        rw [hsp] at hst
        exact hst
      have hcov1 := stage1_cover size overlap hov1 ps [] p1 p1
        (fun q hq => hpsascii q (hsp ▸ List.mem_cons_of_mem p1 hq))
        (hpsascii p1 (hsp ▸ List.mem_cons_self p1 ps)) hp1ne (by simp)
        (cs1, cur1) hst2
      have htext : text = p1 ++ withSeps ps := by
        conv_lhs => rw [← splitNN_join text]
        rw [hsp]
        rfl
      have hc1flat : (if cur1 ≠ [] then cs1 ++ [cur1] else cs1).flatten =
          cs1.flatten ++ cur1 := by
        rw [if_pos hcov1.1]
        simp
      have hsub1 : text.Sublist
          ((if cur1 ≠ [] then cs1 ++ [cur1] else cs1).flatten) := by
        rw [htext, hc1flat]
        exact hcov1.2
      exact (hsub1.trans h2p.2).trans h3cov
  · intro size overlap
    have h0 : stage1Step size overlap ([], []) [] = some ([], []) := by
      simp [stage1Step]
    have h1 : stage1 size overlap (splitNN []) = some ([], []) := by
      rw [splitNN_nil, stage1, List.foldlM_cons, h0]
      simp
    simp only [split_text, h1]
    simp [stage2, stage3]

/-- Witness for C7: the amended theorem applied at a concrete ASCII input. -/
theorem split_text_amended_witness :
    (∀ c ∈ strOf "ab", c.utf8Size = 1) ∧
    ∃ cs, split_text (strOf "ab") 3 1 = some cs ∧
      (∀ ch ∈ cs, ch ≠ []) ∧
      (1 ≤ 1 → (splitNN (strOf "ab")).head? ≠ some [] →
        (strOf "ab").Sublist cs.flatten) :=
  ⟨by decide, split_text_amended.1 3 1 (strOf "ab") (by decide)
    ((by decide : ∀ c ∈ strOf "ab", c.utf8Size = 1))⟩
